import Mathlib

/-!
# Verification of the Dicom-Tools-py windowing/statistics and anonymization core

This file gives a shallow embedding, in Lean 4, of the two core components of
the `Dicom-Tools-py` repository:

* the anonymization transform of `DICOM_reencoder/anonymize_dicom.py`
  (pseudonym generation, field rewrite tables, age preservation, date
  shifting, UID regeneration, removal lists), and
* the windowing / pixel-statistics pipeline of
  `DICOM_reencoder/core/images.py` (`get_frame`, `calculate_statistics`,
  `_derive_window`, `window_frame`).

Modelling conventions:

* Python integers are `ℤ`/`ℕ`; float computations that the source performs on
  exact integer inputs (percentiles, window rescaling) are modelled exactly
  over `ℚ`, with `int()`/`astype(uint8)` modelled as truncation toward zero
  (plus a wrap modulo 256 for the unsigned-8-bit cast).
* A pydicom `Dataset` is modelled, for the anonymization transform, as an
  association list from standard DICOM keywords to string values; element
  presence (`tag in dataset`) is association-list lookup.
* Python's process-seeded builtin `hash` (used only for the date-shift
  offset) is not a fixed function; it is threaded through the embedding as an
  explicit parameter `pyHash : String → ℤ`.
* Fallible code is modelled with `Except`/`Option`; the bare `except:`
  handlers of the source become the corresponding total branches.
-/

/-! ## SHA-256 over byte lists (hashlib.sha256, FIPS 180-4)

`generate_anonymous_id` in `anonymize_dicom.py` computes
`hashlib.sha256(str(original_id).encode()).hexdigest()[:16].upper()`.
We embed SHA-256 itself over lists of byte values (`ℕ` below 256), with
32-bit words represented as `ℕ` reduced modulo `2 ^ 32`.
-/

/-- Right rotation of a 32-bit word represented as `ℕ`. -/
def rotr32 (n x : ℕ) : ℕ :=
  x / 2 ^ n + x % 2 ^ n * 2 ^ (32 - n)

/-- Addition of 32-bit words, reduced modulo `2 ^ 32`. -/
def add32 (x y : ℕ) : ℕ := (x + y) % 2 ^ 32

/-- Bitwise complement of a 32-bit word. -/
def not32 (x : ℕ) : ℕ := x ^^^ (2 ^ 32 - 1)

/-- The SHA-256 round constants K (FIPS 180-4 §4.2.2). -/
def sha256K : List ℕ :=
  [1116352408, 1899447441, 3049323471, 3921009573, 961987163,
   1508970993, 2453635748, 2870763221, 3624381080, 310598401,
   607225278, 1426881987, 1925078388, 2162078206, 2614888103,
   3248222580, 3835390401, 4022224774, 264347078, 604807628,
   770255983, 1249150122, 1555081692, 1996064986, 2554220882,
   2821834349, 2952996808, 3210313671, 3336571891, 3584528711,
   113926993, 338241895, 666307205, 773529912, 1294757372,
   1396182291, 1695183700, 1986661051, 2177026350, 2456956037,
   2730485921, 2820302411, 3259730800, 3345764771, 3516065817,
   3600352804, 4094571909, 275423344, 430227734, 506948616,
   659060556, 883997877, 958139571, 1322822218, 1537002063,
   1747873779, 1955562222, 2024104815, 2227730452, 2361852424,
   2428436474, 2756734187, 3204031479, 3329325298]

/-- The SHA-256 initial hash values H0 (FIPS 180-4 §5.3.3). -/
def sha256H0 : List ℕ :=
  [1779033703, 3144134277, 1013904242, 2773480762, 1359893119,
   2600822924, 528734635, 1541459225]

/-- Big-endian byte serialization of `n` into `k` bytes. -/
def toBytesBE (k n : ℕ) : List ℕ :=
  (List.range k).map fun i => n / 2 ^ (8 * (k - 1 - i)) % 256

/-- SHA-256 message padding: append `0x80`, zero bytes, and the 64-bit
big-endian bit length so the total length is a multiple of 64 bytes. -/
def sha256Pad (msg : List ℕ) : List ℕ :=
  let L := msg.length
  let z := (120 - (L + 1) % 64) % 64
  msg ++ [0x80] ++ List.replicate z 0 ++ toBytesBE 8 (L * 8 % 2 ^ 64)

/-- The `j`-th 32-bit big-endian word of block `b` of a padded message. -/
def blockWord (padded : List ℕ) (b j : ℕ) : ℕ :=
  padded.getD (64 * b + 4 * j) 0 * 2 ^ 24 + padded.getD (64 * b + 4 * j + 1) 0 * 2 ^ 16 +
    padded.getD (64 * b + 4 * j + 2) 0 * 2 ^ 8 + padded.getD (64 * b + 4 * j + 3) 0

/-- The 64-entry message schedule W for one block (FIPS 180-4 §6.2.2 step 1). -/
def sha256Schedule (padded : List ℕ) (b : ℕ) : List ℕ :=
  (List.range 64).foldl
    (fun w j =>
      if j < 16 then w ++ [blockWord padded b j]
      else
        let s0 := rotr32 7 (w.getD (j - 15) 0) ^^^ rotr32 18 (w.getD (j - 15) 0) ^^^
          w.getD (j - 15) 0 / 2 ^ 3
        let s1 := rotr32 17 (w.getD (j - 2) 0) ^^^ rotr32 19 (w.getD (j - 2) 0) ^^^
          w.getD (j - 2) 0 / 2 ^ 10
        w ++ [(w.getD (j - 16) 0 + s0 + w.getD (j - 7) 0 + s1) % 2 ^ 32])
    []

/-- One round of the SHA-256 compression function on the working variables
`[a, b, c, d, e, f, g, h]` (FIPS 180-4 §6.2.2 step 3). -/
def sha256Round (w : List ℕ) (v : List ℕ) (j : ℕ) : List ℕ :=
  let a := v.getD 0 0
  let b := v.getD 1 0
  let c := v.getD 2 0
  let d := v.getD 3 0
  let e := v.getD 4 0
  let f := v.getD 5 0
  let g := v.getD 6 0
  let h := v.getD 7 0
  let S1 := rotr32 6 e ^^^ rotr32 11 e ^^^ rotr32 25 e
  let ch := e &&& f ^^^ not32 e &&& g
  let temp1 := (h + S1 + ch + sha256K.getD j 0 + w.getD j 0) % 2 ^ 32
  let S0 := rotr32 2 a ^^^ rotr32 13 a ^^^ rotr32 22 a
  let maj := a &&& b ^^^ a &&& c ^^^ b &&& c
  let temp2 := (S0 + maj) % 2 ^ 32
  [(temp1 + temp2) % 2 ^ 32, a, b, c, (d + temp1) % 2 ^ 32, e, f, g]

/-- Process one 64-byte block: run 64 rounds and add the result into the
current hash state. -/
def sha256Block (padded : List ℕ) (h : List ℕ) (b : ℕ) : List ℕ :=
  let w := sha256Schedule padded b
  let v := (List.range 64).foldl (sha256Round w) h
  List.zipWith add32 h v

/-- SHA-256 digest of a byte list, as a list of 32 byte values. -/
def sha256Bytes (msg : List ℕ) : List ℕ :=
  let padded := sha256Pad msg
  let hFinal := (List.range (padded.length / 64)).foldl (sha256Block padded) sha256H0
  hFinal.flatMap (toBytesBE 4)

/-! ## UTF-8 encoding and hex digests -/

/-- UTF-8 encoding of one Unicode scalar value (`str.encode()` per
character). -/
def utf8Bytes (c : Char) : List ℕ :=
  let n := c.toNat
  if n < 0x80 then [n]
  else if n < 0x800 then [0xc0 + n / 2 ^ 6, 0x80 + n % 2 ^ 6]
  else if n < 0x10000 then
    [0xe0 + n / 2 ^ 12, 0x80 + n / 2 ^ 6 % 2 ^ 6, 0x80 + n % 2 ^ 6]
  else
    [0xf0 + n / 2 ^ 18, 0x80 + n / 2 ^ 12 % 2 ^ 6, 0x80 + n / 2 ^ 6 % 2 ^ 6,
     0x80 + n % 2 ^ 6]

/-- Python `str.encode()`: the UTF-8 byte sequence of a string. -/
def strBytes (s : String) : List ℕ :=
  s.data.flatMap utf8Bytes

/-- Lowercase hexadecimal digit for `k < 16`. -/
def hexCharLower (k : ℕ) : Char :=
  if k < 10 then Char.ofNat (48 + k) else Char.ofNat (87 + k)

/-- Uppercase hexadecimal digit for `k < 16`. -/
def hexCharUpper (k : ℕ) : Char :=
  if k < 10 then Char.ofNat (48 + k) else Char.ofNat (55 + k)

/-- Two lowercase hex digits of a byte (as produced by `hexdigest()`). -/
def byteHexLower (b : ℕ) : List Char := [hexCharLower (b / 16), hexCharLower (b % 16)]

/-- Two uppercase hex digits of a byte. -/
def byteHexUpper (b : ℕ) : List Char := [hexCharUpper (b / 16), hexCharUpper (b % 16)]

/-- Python `hashlib.sha256(s.encode()).hexdigest()`: the 64-character lowercase hex
digest of a string. -/
def sha256Hexdigest (s : String) : String :=
  ⟨(sha256Bytes (strBytes s)).flatMap byteHexLower⟩

/-- Function `generate_anonymous_id` from `anonymize_dicom.py`:
`hashlib.sha256(str(original_id).encode()).hexdigest()[:16].upper()`.
(`[:16]` takes the first 16 characters; `.upper()` uppercases each of them.) -/
def generateAnonymousId (originalId : String) : String :=
  ⟨((sha256Bytes (strBytes originalId)).flatMap byteHexLower).take 16 |>.map Char.toUpper⟩

/-- The pseudonymous patient identifier built in `anonymize_dicom`:
`f"{patient_prefix}_{generate_anonymous_id(original_patient_id)}"`. -/
def anonymousIdOf (pfx originalId : String) : String :=
  pfx ++ "_" ++ generateAnonymousId originalId

/-- Spec-side pseudonym, following the specification's words: the prefix, an
underscore, and "the first 16 hexadecimal characters, upper-cased, of the
SHA-256 digest" — i.e. the uppercase hex rendering of the first 8 digest
bytes. -/
def specPseudonym (pfx originalId : String) : String :=
  pfx ++ "_" ++ ⟨((sha256Bytes (strBytes originalId)).take 8).flatMap byteHexUpper⟩

/-! ### C1 support lemmas -/

theorem byteHexLower_toUpper {b : ℕ} (hb : b < 256) :
    (byteHexLower b).map Char.toUpper = byteHexUpper b := by
  have h1 : b / 16 < 16 := Nat.div_lt_of_lt_mul (by omega)
  have h2 : b % 16 < 16 := Nat.mod_lt _ (by omega)
  have key : ∀ k, k < 16 → (hexCharLower k).toUpper = hexCharUpper k := by decide
  simp [byteHexLower, byteHexUpper, key _ h1, key _ h2]

theorem take_flatMap_pairs (l : List ℕ) (f : ℕ → List Char)
    (hf : ∀ x, (f x).length = 2) (k : ℕ) :
    (l.flatMap f).take (2 * k) = (l.take k).flatMap f := by
  induction l generalizing k with
  | nil => simp
  | cons a t ih =>
    cases k with
    | zero => simp
    | succ k =>
      have hlen : (f a).length = 2 := hf a
      simp only [List.flatMap_cons, List.take_succ_cons]
      rw [List.take_append_eq_append_take, hlen]
      have : 2 * (k + 1) - 2 = 2 * k := by omega
      rw [List.take_of_length_le (by omega), this, ih k]

theorem toBytesBE_lt (k n : ℕ) : ∀ b ∈ toBytesBE k n, b < 256 := by
  intro b hb
  simp only [toBytesBE, List.mem_map] at hb
  obtain ⟨i, _, rfl⟩ := hb
  exact Nat.mod_lt _ (by omega)

theorem sha256Bytes_lt (msg : List ℕ) : ∀ b ∈ sha256Bytes msg, b < 256 := by
  intro b hb
  simp only [sha256Bytes, List.mem_flatMap] at hb
  obtain ⟨w, _, hw⟩ := hb
  exact toBytesBE_lt 4 w b hw

theorem flatMap_lower_upper (l : List ℕ) (hl : ∀ b ∈ l, b < 256) :
    ((l.flatMap byteHexLower).map Char.toUpper) = l.flatMap byteHexUpper := by
  induction l with
  | nil => simp
  | cons a t ih =>
    simp only [List.flatMap_cons, List.map_append]
    rw [byteHexLower_toUpper (hl a (by simp)), ih fun b hb => hl b (by simp [hb])]

/-- C1: for every prefix and original patient ID, the anonymization transform
computes the pseudonym as the prefix, an underscore, and the first 16
hexadecimal characters, upper-cased, of the SHA-256 digest of the original
patient ID string.  Both sides are pure functions of `(pfx, originalId)`, so
the same original ID under the same prefix always yields the same pseudonym. -/
theorem anonymize_pseudonym_formula (pfx originalId : String) :
    anonymousIdOf pfx originalId = specPseudonym pfx originalId := by
  unfold anonymousIdOf specPseudonym generateAnonymousId
  congr 2
  have h16 : (16 : ℕ) = 2 * 8 := by norm_num
  rw [h16, take_flatMap_pairs _ byteHexLower (fun x => rfl) 8]
  exact flatMap_lower_upper _ fun b hb =>
    sha256Bytes_lt _ b (List.mem_of_mem_take hb)

/-! ## Dates (`datetime.strptime(value, "%Y%m%d")`, `timedelta`, `strftime`)

CPython's `_strptime` matches `%Y` with exactly four digits, `%m` with the
regex `1[0-2]|0[1-9]|[1-9]` and `%d` with `3[01]|[12]\d|0[1-9]|[1-9]`
(alternatives tried in that order, with backtracking), and the whole string
must be consumed.  The `datetime` constructor then validates the calendar
date and the supported year range 1..9999.  Subtracting a `timedelta` that
would leave that range raises `OverflowError`.  We model dates by their
proleptic-Gregorian rata-die number (0001-01-01 is day 1), with
Hinnant-style closed-form conversions.
-/

/-- A calendar date as parsed from an 8-digit DICOM date string. -/
structure Date where
  y : ℕ
  m : ℕ
  d : ℕ
  deriving DecidableEq, Repr

/-- Gregorian leap-year test. -/
def isLeap (y : ℕ) : Bool :=
  y % 4 == 0 && (y % 100 != 0 || y % 400 == 0)

/-- Days in a given month of a given year. -/
def daysInMonth (y m : ℕ) : ℕ :=
  [31, if isLeap y then 29 else 28, 31, 30, 31, 30, 31, 31, 30, 31, 30, 31].getD (m - 1) 0

/-- Days in the months strictly before month `m` of year `y`. -/
def monthOffset (y m : ℕ) : ℕ :=
  [0, 31, 59, 90, 120, 151, 181, 212, 243, 273, 304, 334].getD (m - 1) 0 +
    (if 3 ≤ m ∧ isLeap y then 1 else 0)

/-- Rata-die number of a date (0001-01-01 has number 1). -/
def rataDie (dt : Date) : ℕ :=
  365 * (dt.y - 1) + (dt.y - 1) / 4 - (dt.y - 1) / 100 + (dt.y - 1) / 400 +
    monthOffset dt.y dt.m + dt.d

/-- Inverse of `rataDie` (Hinnant's `civil_from_days`, shifted so the input
is a rata-die number). -/
def dateOfRataDie (rd : ℕ) : Date :=
  let n := rd + 305
  let era := n / 146097
  let doe := n % 146097
  let yoe := (doe - doe / 1460 + doe / 36524 - doe / 146096) / 365
  let y := yoe + era * 400
  let doy := doe - (365 * yoe + yoe / 4 - yoe / 100)
  let mp := (5 * doy + 2) / 153
  let d := doy - (153 * mp + 2) / 5 + 1
  let m := if mp < 10 then mp + 3 else mp - 9
  ⟨if m ≤ 2 then y + 1 else y, m, d⟩

/-- Numeric value of a decimal digit character. -/
def digitVal (c : Char) : ℕ := c.toNat - 48

/-- The `%d` pattern `3[01]|[12]\d|0[1-9]|[1-9]`, required to consume the
whole remaining input. -/
def dayAlts (cs : List Char) : Option ℕ :=
  match cs with
  | [c1, c2] =>
    if c1 = '3' ∧ (c2 = '0' ∨ c2 = '1') then some (30 + digitVal c2)
    else if (c1 = '1' ∨ c1 = '2') ∧ c2.isDigit then some (10 * digitVal c1 + digitVal c2)
    else if c1 = '0' ∧ '1' ≤ c2 ∧ c2 ≤ '9' then some (digitVal c2)
    else none
  | [c1] => if '1' ≤ c1 ∧ c1 ≤ '9' then some (digitVal c1) else none
  | _ => none

/-- The `%m%d$` tail of the format: two-digit month alternatives are tried
first, falling back (regex backtracking) to a one-digit month. -/
def monthThenDay (cs : List Char) : Option (ℕ × ℕ) :=
  (match cs with
   | c1 :: c2 :: rest =>
     if c1 = '1' ∧ (c2 = '0' ∨ c2 = '1' ∨ c2 = '2') then
       (dayAlts rest).map fun d => (10 + digitVal c2, d)
     else if c1 = '0' ∧ '1' ≤ c2 ∧ c2 ≤ '9' then
       (dayAlts rest).map fun d => (digitVal c2, d)
     else none
   | _ => none) <|>
  (match cs with
   | c1 :: rest =>
     if '1' ≤ c1 ∧ c1 ≤ '9' then (dayAlts rest).map fun d => (digitVal c1, d) else none
   | _ => none)

/-- Python `datetime.strptime(s, "%Y%m%d")` up to the regex match: four year
digits, then month and day patterns consuming the rest. -/
def parseYmd (s : String) : Option (ℕ × ℕ × ℕ) :=
  match s.data with
  | y1 :: y2 :: y3 :: y4 :: rest =>
    if y1.isDigit ∧ y2.isDigit ∧ y3.isDigit ∧ y4.isDigit then
      (monthThenDay rest).map fun md =>
        (1000 * digitVal y1 + 100 * digitVal y2 + 10 * digitVal y3 + digitVal y4, md.1, md.2)
    else none
  | _ => none

/-- Python `datetime.strptime(s, "%Y%m%d")` including the `datetime` constructor's
calendar validation (year ≥ 1, day within the month). -/
def parseDate (s : String) : Option Date :=
  match parseYmd s with
  | some (y, m, d) => if 1 ≤ y ∧ 1 ≤ d ∧ d ≤ daysInMonth y m then some ⟨y, m, d⟩ else none
  | none => none

/-- Zero-pad a decimal string on the left to width `w`. -/
def padZeros (w : ℕ) (s : String) : String :=
  ⟨List.replicate (w - s.length) '0'⟩ ++ s

/-- Python `strftime("%Y%m%d")` (with `%Y` zero-padded to four digits, which is the
case for all years ≥ 1000 on every platform). -/
def formatDate (dt : Date) : String :=
  padZeros 4 (toString dt.y) ++ padZeros 2 (toString dt.m) ++ padZeros 2 (toString dt.d)

/-- Formatting `f"{age:03d}Y"`: zero-padded 3-wide decimal (sign included in the width
for negative values) suffixed with `Y`. -/
def formatAge (a : ℤ) : String :=
  (if a < 0 then "-" ++ padZeros 2 (toString a.natAbs) else padZeros 3 (toString a.natAbs)) ++ "Y"

/-- The body of the date-shift `try` block of `anonymize_dicom` for one
present, truthy value: parse, subtract the offset, re-serialize; the bare
`except:` (parse failure or `OverflowError` when the shifted date would fall
before 0001-01-01) blanks the value. -/
def shiftDateValue (offset : ℤ) (v : String) : String :=
  match parseDate v with
  | none => ""
  | some dt =>
    let rd : ℤ := (rataDie dt : ℤ) - offset
    if rd < 1 then "" else formatDate (dateOfRataDie rd.toNat)

theorem rataDie_roundtrip_check :
    dateOfRataDie (rataDie ⟨1, 1, 1⟩) = ⟨1, 1, 1⟩ ∧
      dateOfRataDie (rataDie ⟨1980, 10, 1⟩) = ⟨1980, 10, 1⟩ ∧
      dateOfRataDie (rataDie ⟨2020, 2, 29⟩) = ⟨2020, 2, 29⟩ ∧
      dateOfRataDie (rataDie ⟨2000, 3, 1⟩) = ⟨2000, 3, 1⟩ ∧
      rataDie ⟨2020, 1, 1⟩ - rataDie ⟨1980, 1, 1⟩ = 14610 := by
  decide

/-! ## The pydicom `Dataset`, as seen by `anonymize_dicom`

Modelled as an association list from standard DICOM keywords to string
values.  `tag in dataset` is lookup success; `dataset.data_element(tag).value
= v` rewrites the value of a present tag; `dataset.PatientAge = v` sets or
creates the element; `delattr(dataset, tag)` removes it.
-/

/-- A field record: association list of (keyword, value) pairs. -/
abbrev DicomDataset : Type := List (String × String)

/-- Lookup `tag in dataset` / `dataset.get(tag)`: first value stored under `t`. -/
def getTag : DicomDataset → String → Option String
  | [], _ => none
  | p :: rest, t => if p.1 = t then some p.2 else getTag rest t

/-- Assignment `dataset.data_element(t).value = v`: rewrite the value kept under `t`,
leaving other entries alone. -/
def setTagValue : DicomDataset → String → String → DicomDataset
  | [], _, _ => []
  | p :: rest, t, v => (if p.1 = t then (p.1, v) else p) :: setTagValue rest t v

/-- Deletion `delattr(dataset, t)`: drop the element. -/
def removeTag : DicomDataset → String → DicomDataset
  | [], _ => []
  | p :: rest, t => if p.1 = t then removeTag rest t else p :: removeTag rest t

/-- Python `setattr`-style assignment (`dataset.PatientAge = v`): overwrite when
present, append when absent. -/
def setOrAddTag (ds : DicomDataset) (t v : String) : DicomDataset :=
  if (getTag ds t).isSome then setTagValue ds t v else ds ++ [(t, v)]

/-! ## The anonymization transform (`anonymize_dicom`) -/

/-- Table `patient_tags_to_anonymize` (dict insertion order preserved). -/
def patientTable (anonId : String) : List (String × String) :=
  [("PatientName", "ANONYMOUS^PATIENT"),
   ("PatientID", anonId),
   ("PatientBirthDate", ""),
   ("PatientSex", ""),
   ("PatientAge", ""),
   ("PatientWeight", ""),
   ("PatientSize", ""),
   ("PatientAddress", ""),
   ("PatientTelephoneNumbers", ""),
   ("PatientMotherBirthName", ""),
   ("MilitaryRank", ""),
   ("EthnicGroup", ""),
   ("Occupation", ""),
   ("AdditionalPatientHistory", ""),
   ("PatientComments", ""),
   ("ResponsiblePerson", ""),
   ("ResponsibleOrganization", "")]

/-- Table `study_tags_to_anonymize`; a `none` replacement means the element is
deleted (`delattr`) rather than rewritten. -/
def studyTable : List (String × Option String) :=
  [("ReferringPhysicianName", some "ANONYMIZED"),
   ("ReferringPhysicianAddress", some ""),
   ("ReferringPhysicianTelephoneNumbers", some ""),
   ("ReferringPhysicianIdentificationSequence", none),
   ("PhysiciansOfRecord", some "ANONYMIZED"),
   ("PerformingPhysicianName", some "ANONYMIZED"),
   ("OperatorsName", some "ANONYMIZED"),
   ("InstitutionName", some "ANONYMIZED"),
   ("InstitutionAddress", some ""),
   ("InstitutionalDepartmentName", some ""),
   ("StationName", some "")]

/-- List `date_tags`. -/
def dateTags : List String :=
  ["StudyDate", "SeriesDate", "AcquisitionDate", "ContentDate",
   "InstanceCreationDate", "PerformedProcedureStepStartDate"]

/-- List `uid_tags_to_regenerate`. -/
def uidTags : List String :=
  ["StudyInstanceUID", "SeriesInstanceUID", "SOPInstanceUID"]

/-- List `tags_to_remove`. -/
def removalList : List String :=
  ["AccessionNumber", "IssuerOfPatientID", "OtherPatientIDs",
   "OtherPatientNames", "PatientBirthName", "PatientInsurancePlanCodeSequence",
   "PatientPrimaryLanguageCodeSequence", "RequestingPhysician",
   "RequestingService", "RequestAttributesSequence",
   "ScheduledProcedureStepDescription", "PerformedProcedureStepDescription"]

/-- The fixed numeric private root used for regenerated UIDs. -/
def uidRoot : String := "1.2.826.0.1.3680043.8.498."

/-- Step 2: rewrite each patient-identifying tag that is present. -/
def applyTable (tbl : List (String × String)) (ds : DicomDataset) : DicomDataset :=
  tbl.foldl (fun acc tv => if (getTag acc tv.1).isSome then setTagValue acc tv.1 tv.2 else acc) ds

/-- Step 4: rewrite (or, for `none`, delete) each study tag that is present. -/
def applyTableOpt (tbl : List (String × Option String)) (ds : DicomDataset) : DicomDataset :=
  tbl.foldl
    (fun acc tv =>
      if (getTag acc tv.1).isSome then
        match tv.2 with
        | none => removeTag acc tv.1
        | some v => setTagValue acc tv.1 v
      else acc)
    ds

/-- Step 3 ("preserve age if possible"): if both `PatientBirthDate` and
`StudyDate` are present and both parse, store the age in whole years; any
parse failure is swallowed (`except: pass`).  Note that this runs after the
patient-table rewrite, which has already blanked a present
`PatientBirthDate`. -/
def ageStep (ds : DicomDataset) : DicomDataset :=
  match getTag ds "PatientBirthDate", getTag ds "StudyDate" with
  | some b, some s =>
    match parseDate b, parseDate s with
    | some bd, some sd =>
      setOrAddTag ds "PatientAge"
        (formatAge (Int.fdiv ((rataDie sd : ℤ) - (rataDie bd : ℤ)) 365))
    | _, _ => ds
  | _, _ => ds

/-- The loop body of step 5 over an explicit tag list. -/
def dateFold (offset : ℤ) (ts : List String) (ds : DicomDataset) : DicomDataset :=
  ts.foldl
    (fun acc t =>
      match getTag acc t with
      | some v => if v = "" then acc else setTagValue acc t (shiftDateValue offset v)
      | none => acc)
    ds

/-- Step 5: shift every present, non-empty date tag by the per-subject
offset; the bare `except:` blanks values that fail to parse or to shift. -/
def dateStep (offset : ℤ) (ds : DicomDataset) : DicomDataset :=
  dateFold offset dateTags ds

/-- The loop body of step 6 over an explicit tag list. -/
def uidFold (anonId : String) (ts : List String) (ds : DicomDataset) : DicomDataset :=
  ts.foldl
    (fun acc t =>
      match getTag acc t with
      | some u => setTagValue acc t (uidRoot ++ generateAnonymousId (anonId ++ "_" ++ u))
      | none => acc)
    ds

/-- Step 6: regenerate each present hierarchical UID from the seed
`f"{anonymous_id}_{original_uid}"`. -/
def uidStep (anonId : String) (ds : DicomDataset) : DicomDataset :=
  uidFold anonId uidTags ds

/-- Step 7: drop each present tag of the removal list. -/
def removeTags (ts : List String) (ds : DicomDataset) : DicomDataset :=
  ts.foldl (fun acc t => if (getTag acc t).isSome then removeTag acc t else acc) ds

/-- Method `dataset.remove_private_tags()` removes elements whose group number is
odd.  In this model datasets are keyed by standard DICOM keywords, and every
attribute addressed by a standard keyword lives in an even (public) group,
so the predicate is constantly false on representable keys. -/
def isPrivateKeyword : String → Bool := fun _ => false

/-- Step 8: vendor-private purge. -/
def removePrivateTags (ds : DicomDataset) : DicomDataset :=
  ds.filter fun p => !isPrivateKeyword p.1

/-- The in-memory body of `anonymize_dicom` (everything between a successful
`dcmread` and `save_as`), as a function of the dataset.  `pyHash` stands for
Python's process-seeded builtin `hash`, used only for the date offset. -/
def anonymizeDataset (pyHash : String → ℤ) (pfx : String) (ds : DicomDataset) : DicomDataset :=
  let originalPatientId := (getTag ds "PatientID").getD "UNKNOWN"
  let anonId := anonymousIdOf pfx originalPatientId
  let d1 := applyTable (patientTable anonId) ds
  let d2 := ageStep d1
  let d3 := applyTableOpt studyTable d2
  let offset := pyHash originalPatientId % 365
  let d4 := dateStep offset d3
  let d5 := uidStep anonId d4
  let d6 := removeTags removalList d5
  removePrivateTags d6

/-- Function `anonymize_dicom` itself: the whole body runs under `try: ... except
Exception: ... return None`.  The only fallible statement on the modelled
fragment is the initial `pydicom.dcmread`, whose outcome is the input here
(file I/O, `print`, and `save_as` are outside the model). -/
def anonymizeDicom (pyHash : String → ℤ) (readResult : Except String DicomDataset)
    (pfx : String) : Option DicomDataset :=
  match readResult with
  | .error _ => none
  | .ok ds => some (anonymizeDataset pyHash pfx ds)

/-! ### Association-list lemmas -/

theorem getTag_append (ds ds2 : DicomDataset) (u : String) :
    getTag (ds ++ ds2) u = (getTag ds u).or (getTag ds2 u) := by
  induction ds with
  | nil => simp [getTag]
  | cons p rest ih =>
    rw [List.cons_append]
    by_cases h : p.1 = u <;> simp [getTag, h, ih]

theorem getTag_setTagValue (ds : DicomDataset) (t v u : String) :
    getTag (setTagValue ds t v) u =
      if u = t then (getTag ds t).map fun _ => v else getTag ds u := by
  induction ds with
  | nil => simp [setTagValue, getTag]
  | cons p rest ih =>
    by_cases hpt : p.1 = t
    · by_cases hut : u = t
      · simp [setTagValue, getTag, hpt, hut, hpt.trans hut.symm]
      · have hpu : ¬p.1 = u := fun h => hut (h.symm.trans hpt)
        simp [setTagValue, getTag, hpt, hut, hpu, ih, Ne.symm hut]
    · by_cases hpu : p.1 = u
      · have hut : ¬u = t := fun h => hpt (hpu.trans h)
        simp [setTagValue, getTag, hpt, hpu, hut]
      · simp [setTagValue, getTag, hpt, hpu, ih]

theorem getTag_removeTag (ds : DicomDataset) (t u : String) :
    getTag (removeTag ds t) u = if u = t then none else getTag ds u := by
  induction ds with
  | nil => simp [removeTag, getTag]
  | cons p rest ih =>
    by_cases hpt : p.1 = t
    · by_cases hut : u = t
      · subst hut; simp [removeTag, hpt, ih]
      · have hpu : ¬p.1 = u := fun h => hut (h.symm.trans hpt)
        simp [removeTag, getTag, hpt, hut, hpu, ih, Ne.symm hut]
    · by_cases hpu : p.1 = u
      · have hut : ¬u = t := fun h => hpt (hpu.trans h)
        simp [removeTag, getTag, hpt, hpu, hut]
      · simp [removeTag, getTag, hpt, hpu, ih]

theorem getTag_setOrAddTag (ds : DicomDataset) (t v u : String) :
    getTag (setOrAddTag ds t v) u =
      if u = t then some v else getTag ds u := by
  unfold setOrAddTag
  by_cases hp : (getTag ds t).isSome
  · rw [if_pos hp, getTag_setTagValue]
    obtain ⟨w, hw⟩ := Option.isSome_iff_exists.mp hp
    by_cases hut : u = t <;> simp [hut, hw]
  · rw [if_neg hp, getTag_append]
    have hnone : getTag ds t = none := Option.not_isSome_iff_eq_none.mp hp
    by_cases hut : u = t
    · subst hut
      simp [hnone, getTag]
    · cases hgu : getTag ds u <;> simp [hut, hgu, getTag, Ne.symm hut]

theorem getTag_setTagValue_ne (ds : DicomDataset) (t v u : String) (h : u ≠ t) :
    getTag (setTagValue ds t v) u = getTag ds u := by
  rw [getTag_setTagValue, if_neg h]

theorem getTag_setTagValue_none (ds : DicomDataset) (t v u : String)
    (h : getTag ds u = none) : getTag (setTagValue ds t v) u = none := by
  rw [getTag_setTagValue]
  by_cases hut : u = t
  · subst hut; simp [h]
  · simp [hut, h]

/-! ### Fold lemmas for the rewrite steps -/


theorem getTag_applyTable_not_mem (tbl : List (String × String)) (ds : DicomDataset)
    (t : String) (h : t ∉ tbl.map Prod.fst) :
    getTag (applyTable tbl ds) t = getTag ds t := by
  induction tbl generalizing ds with
  | nil => rfl
  | cons tv rest ih =>
    simp only [List.map_cons, List.mem_cons, not_or] at h
    show getTag (applyTable rest _) t = _
    rw [ih _ h.2]
    dsimp only
    split
    · exact getTag_setTagValue_ne _ _ _ _ h.1
    · rfl

theorem getTag_applyTable_none (tbl : List (String × String)) (ds : DicomDataset)
    (t : String) (h : getTag ds t = none) :
    getTag (applyTable tbl ds) t = none := by
  induction tbl generalizing ds with
  | nil => exact h
  | cons tv rest ih =>
    show getTag (applyTable rest _) t = _
    apply ih
    dsimp only
    split
    · exact getTag_setTagValue_none _ _ _ _ h
    · exact h

theorem getTag_applyTable_mem (tbl : List (String × String)) (ds : DicomDataset)
    (t v : String) (hmem : (t, v) ∈ tbl) (hnodup : (tbl.map Prod.fst).Nodup) :
    getTag (applyTable tbl ds) t = (getTag ds t).map fun _ => v := by
  induction tbl generalizing ds with
  | nil => cases hmem
  | cons tv rest ih =>
    obtain ⟨k, w⟩ := tv
    simp only [List.map_cons, List.nodup_cons] at hnodup
    rcases List.mem_cons.mp hmem with heq | htail
    · injection heq with hk hw
      subst hk
      subst hw
      show getTag (applyTable rest _) t = _
      rw [getTag_applyTable_not_mem rest _ t hnodup.1]
      dsimp only
      cases hg : getTag ds t
      · simp [hg]
      · simp [hg, getTag_setTagValue]
    · have hkey : k ≠ t := by
        intro hk
        apply hnodup.1
        rw [hk]
        exact List.mem_map_of_mem Prod.fst htail
      show getTag (applyTable rest _) t = _
      rw [ih _ htail hnodup.2]
      dsimp only
      split
      · rw [getTag_setTagValue_ne _ _ _ _ (Ne.symm hkey)]
      · rfl

theorem getTag_applyTableOpt_not_mem (tbl : List (String × Option String))
    (ds : DicomDataset) (t : String) (h : t ∉ tbl.map Prod.fst) :
    getTag (applyTableOpt tbl ds) t = getTag ds t := by
  induction tbl generalizing ds with
  | nil => rfl
  | cons tv rest ih =>
    simp only [List.map_cons, List.mem_cons, not_or] at h
    show getTag (applyTableOpt rest _) t = _
    rw [ih _ h.2]
    dsimp only
    split
    · cases tv.2 with
      | none => rw [getTag_removeTag, if_neg h.1]
      | some w => exact getTag_setTagValue_ne _ _ _ _ h.1
    · rfl

theorem getTag_applyTableOpt_none (tbl : List (String × Option String))
    (ds : DicomDataset) (t : String) (h : getTag ds t = none) :
    getTag (applyTableOpt tbl ds) t = none := by
  induction tbl generalizing ds with
  | nil => exact h
  | cons tv rest ih =>
    show getTag (applyTableOpt rest _) t = _
    apply ih
    dsimp only
    split
    · cases tv.2 with
      | none =>
        rw [getTag_removeTag]
        split <;> simp [h]
      | some w => exact getTag_setTagValue_none _ _ _ _ h
    · exact h

theorem getTag_dateFold_not_mem (off : ℤ) (ts : List String) (ds : DicomDataset)
    (t : String) (h : t ∉ ts) :
    getTag (dateFold off ts ds) t = getTag ds t := by
  induction ts generalizing ds with
  | nil => rfl
  | cons t0 rest ih =>
    simp only [List.mem_cons, not_or] at h
    show getTag (dateFold off rest _) t = _
    rw [ih _ h.2]
    dsimp only
    cases getTag ds t0
    · rfl
    · dsimp only
      split
      · rfl
      · exact getTag_setTagValue_ne _ _ _ _ h.1

theorem getTag_dateFold_none (off : ℤ) (ts : List String) (ds : DicomDataset)
    (t : String) (h : getTag ds t = none) :
    getTag (dateFold off ts ds) t = none := by
  induction ts generalizing ds with
  | nil => exact h
  | cons t0 rest ih =>
    show getTag (dateFold off rest _) t = _
    apply ih
    dsimp only
    cases getTag ds t0
    · exact h
    · dsimp only
      split
      · exact h
      · exact getTag_setTagValue_none _ _ _ _ h

theorem getTag_dateFold_mem (off : ℤ) (ts : List String) (ds : DicomDataset)
    (t : String) (hmem : t ∈ ts) (hnodup : ts.Nodup) :
    getTag (dateFold off ts ds) t =
      (getTag ds t).map fun v => if v = "" then v else shiftDateValue off v := by
  induction ts generalizing ds with
  | nil => cases hmem
  | cons t0 rest ih =>
    rw [List.nodup_cons] at hnodup
    rcases List.mem_cons.mp hmem with heq | htail
    · subst heq
      show getTag (dateFold off rest _) t = _
      rw [getTag_dateFold_not_mem _ _ _ _ hnodup.1]
      dsimp only
      cases hg : getTag ds t
      · simp [hg]
      · rename_i v
        dsimp only
        by_cases hv : v = ""
        · simp [hv, hg]
        · rw [if_neg hv, getTag_setTagValue]
          simp [hg, hv]
    · have hkey : t0 ≠ t := fun hk => hnodup.1 (hk ▸ htail)
      show getTag (dateFold off rest _) t = _
      rw [ih _ htail hnodup.2]
      dsimp only
      cases getTag ds t0
      · rfl
      · dsimp only
        split
        · rfl
        · rw [getTag_setTagValue_ne _ _ _ _ (Ne.symm hkey)]

theorem getTag_uidFold_not_mem (a : String) (ts : List String) (ds : DicomDataset)
    (t : String) (h : t ∉ ts) :
    getTag (uidFold a ts ds) t = getTag ds t := by
  induction ts generalizing ds with
  | nil => rfl
  | cons t0 rest ih =>
    simp only [List.mem_cons, not_or] at h
    show getTag (uidFold a rest _) t = _
    rw [ih _ h.2]
    dsimp only
    cases getTag ds t0
    · rfl
    · exact getTag_setTagValue_ne _ _ _ _ h.1

theorem getTag_uidFold_none (a : String) (ts : List String) (ds : DicomDataset)
    (t : String) (h : getTag ds t = none) :
    getTag (uidFold a ts ds) t = none := by
  induction ts generalizing ds with
  | nil => exact h
  | cons t0 rest ih =>
    show getTag (uidFold a rest _) t = _
    apply ih
    dsimp only
    cases getTag ds t0
    · exact h
    · exact getTag_setTagValue_none _ _ _ _ h

theorem getTag_uidFold_mem (a : String) (ts : List String) (ds : DicomDataset)
    (t : String) (hmem : t ∈ ts) (hnodup : ts.Nodup) :
    getTag (uidFold a ts ds) t =
      (getTag ds t).map fun u => uidRoot ++ generateAnonymousId (a ++ "_" ++ u) := by
  induction ts generalizing ds with
  | nil => cases hmem
  | cons t0 rest ih =>
    rw [List.nodup_cons] at hnodup
    rcases List.mem_cons.mp hmem with heq | htail
    · subst heq
      show getTag (uidFold a rest _) t = _
      rw [getTag_uidFold_not_mem _ _ _ _ hnodup.1]
      dsimp only
      cases hg : getTag ds t
      · simp [hg]
      · dsimp only
        rw [getTag_setTagValue]
        simp [hg]
    · have hkey : t0 ≠ t := fun hk => hnodup.1 (hk ▸ htail)
      show getTag (uidFold a rest _) t = _
      rw [ih _ htail hnodup.2]
      dsimp only
      cases getTag ds t0
      · rfl
      · rw [getTag_setTagValue_ne _ _ _ _ (Ne.symm hkey)]

theorem getTag_removeTags_not_mem (ts : List String) (ds : DicomDataset)
    (t : String) (h : t ∉ ts) :
    getTag (removeTags ts ds) t = getTag ds t := by
  induction ts generalizing ds with
  | nil => rfl
  | cons t0 rest ih =>
    simp only [List.mem_cons, not_or] at h
    show getTag (removeTags rest _) t = _
    rw [ih _ h.2]
    dsimp only
    split
    · rw [getTag_removeTag, if_neg h.1]
    · rfl

theorem getTag_removeTags_none (ts : List String) (ds : DicomDataset)
    (t : String) (h : getTag ds t = none) :
    getTag (removeTags ts ds) t = none := by
  induction ts generalizing ds with
  | nil => exact h
  | cons t0 rest ih =>
    show getTag (removeTags rest _) t = _
    apply ih
    dsimp only
    split
    · rw [getTag_removeTag]
      split <;> simp [h]
    · exact h

theorem removePrivateTags_eq (ds : DicomDataset) : removePrivateTags ds = ds := by
  unfold removePrivateTags isPrivateKeyword
  simp

theorem getTag_ageStep_ne (ds : DicomDataset) (u : String) (h : u ≠ "PatientAge") :
    getTag (ageStep ds) u = getTag ds u := by
  unfold ageStep
  cases getTag ds "PatientBirthDate" with
  | none => rfl
  | some b =>
    cases getTag ds "StudyDate" with
    | none => rfl
    | some s =>
      dsimp only
      cases parseDate b with
      | none => rfl
      | some bd =>
        cases parseDate s with
        | none => rfl
        | some sd =>
          dsimp only
          rw [getTag_setOrAddTag, if_neg h]

theorem patientTable_keys_nodup (a : String) : ((patientTable a).map Prod.fst).Nodup := by
  show (["PatientName", "PatientID", "PatientBirthDate", "PatientSex", "PatientAge",
    "PatientWeight", "PatientSize", "PatientAddress", "PatientTelephoneNumbers",
    "PatientMotherBirthName", "MilitaryRank", "EthnicGroup", "Occupation",
    "AdditionalPatientHistory", "PatientComments", "ResponsiblePerson",
    "ResponsibleOrganization"] : List String).Nodup
  decide

/-- After the patient-table rewrite, a present `PatientBirthDate` holds the
empty string, so the age-preservation step's `strptime` always fails and the
step is a no-op: `PatientAge` is never actually recomputed or created. -/
theorem ageStep_after_patientTable (a : String) (ds : DicomDataset) :
    ageStep (applyTable (patientTable a) ds) = applyTable (patientTable a) ds := by
  have hchar := getTag_applyTable_mem (patientTable a) ds "PatientBirthDate" ""
    (List.Mem.tail _ (List.Mem.tail _ (List.Mem.head _))) (patientTable_keys_nodup a)
  cases hbd : getTag ds "PatientBirthDate" with
  | none =>
    rw [hbd] at hchar
    simp only [Option.map_none'] at hchar
    unfold ageStep
    rw [hchar]
  | some w =>
    rw [hbd] at hchar
    simp only [Option.map_some'] at hchar
    unfold ageStep
    rw [hchar]
    cases getTag (applyTable (patientTable a) ds) "StudyDate" with
    | none => rfl
    | some s =>
      dsimp only
      rw [show parseDate "" = none from rfl]

/-! ### Pipeline characterizations -/

theorem patientTable_keys (a : String) :
    (patientTable a).map Prod.fst =
      ["PatientName", "PatientID", "PatientBirthDate", "PatientSex", "PatientAge",
       "PatientWeight", "PatientSize", "PatientAddress", "PatientTelephoneNumbers",
       "PatientMotherBirthName", "MilitaryRank", "EthnicGroup", "Occupation",
       "AdditionalPatientHistory", "PatientComments", "ResponsiblePerson",
       "ResponsibleOrganization"] := rfl

/-- Date tags pass through every anonymization step except the date shift,
which replaces a present non-empty value `v` by `shiftDateValue offset v`
where `offset = pyHash(original PatientID) % 365`. -/
theorem getTag_anonymizeDataset_date (pyHash : String → ℤ) (pfx : String)
    (ds : DicomDataset) (t : String) (ht : t ∈ dateTags) :
    getTag (anonymizeDataset pyHash pfx ds) t =
      (getTag ds t).map fun v =>
        if v = "" then v
        else shiftDateValue (pyHash ((getTag ds "PatientID").getD "UNKNOWN") % 365) v := by
  have hrem : t ∉ removalList := (by decide : ∀ x ∈ dateTags, x ∉ removalList) t ht
  have huid : t ∉ uidTags := (by decide : ∀ x ∈ dateTags, x ∉ uidTags) t ht
  have hstudy : t ∉ studyTable.map Prod.fst :=
    (by decide : ∀ x ∈ dateTags, x ∉ studyTable.map Prod.fst) t ht
  have hage : t ≠ "PatientAge" := (by decide : ∀ x ∈ dateTags, x ≠ "PatientAge") t ht
  have hpat : ∀ a, t ∉ (patientTable a).map Prod.fst := fun a => by
    rw [patientTable_keys]
    exact (by decide : ∀ x ∈ dateTags,
      x ∉ (["PatientName", "PatientID", "PatientBirthDate", "PatientSex", "PatientAge",
       "PatientWeight", "PatientSize", "PatientAddress", "PatientTelephoneNumbers",
       "PatientMotherBirthName", "MilitaryRank", "EthnicGroup", "Occupation",
       "AdditionalPatientHistory", "PatientComments", "ResponsiblePerson",
       "ResponsibleOrganization"] : List String)) t ht
  unfold anonymizeDataset uidStep dateStep
  dsimp only
  rw [removePrivateTags_eq, getTag_removeTags_not_mem _ _ _ hrem,
    getTag_uidFold_not_mem _ _ _ _ huid,
    getTag_dateFold_mem _ _ _ _ ht (by decide : dateTags.Nodup),
    getTag_applyTableOpt_not_mem _ _ _ hstudy, getTag_ageStep_ne _ _ hage,
    getTag_applyTable_not_mem _ _ _ (hpat _)]

/-- UID tags pass through every anonymization step except UID regeneration,
which replaces a present value `u` by the fixed private root followed by the
16-hex-character hash of `anonymousId ++ "_" ++ u`. -/
theorem getTag_anonymizeDataset_uid (pyHash : String → ℤ) (pfx : String)
    (ds : DicomDataset) (t : String) (ht : t ∈ uidTags) :
    getTag (anonymizeDataset pyHash pfx ds) t =
      (getTag ds t).map fun u =>
        uidRoot ++ generateAnonymousId
          (anonymousIdOf pfx ((getTag ds "PatientID").getD "UNKNOWN") ++ "_" ++ u) := by
  have hrem : t ∉ removalList := (by decide : ∀ x ∈ uidTags, x ∉ removalList) t ht
  have hdate : t ∉ dateTags := (by decide : ∀ x ∈ uidTags, x ∉ dateTags) t ht
  have hstudy : t ∉ studyTable.map Prod.fst :=
    (by decide : ∀ x ∈ uidTags, x ∉ studyTable.map Prod.fst) t ht
  have hage : t ≠ "PatientAge" := (by decide : ∀ x ∈ uidTags, x ≠ "PatientAge") t ht
  have hpat : ∀ a, t ∉ (patientTable a).map Prod.fst := fun a => by
    rw [patientTable_keys]
    exact (by decide : ∀ x ∈ uidTags,
      x ∉ (["PatientName", "PatientID", "PatientBirthDate", "PatientSex", "PatientAge",
       "PatientWeight", "PatientSize", "PatientAddress", "PatientTelephoneNumbers",
       "PatientMotherBirthName", "MilitaryRank", "EthnicGroup", "Occupation",
       "AdditionalPatientHistory", "PatientComments", "ResponsiblePerson",
       "ResponsibleOrganization"] : List String)) t ht
  unfold anonymizeDataset uidStep dateStep
  dsimp only
  rw [removePrivateTags_eq, getTag_removeTags_not_mem _ _ _ hrem,
    getTag_uidFold_mem _ _ _ _ ht (by decide : uidTags.Nodup),
    getTag_dateFold_not_mem _ _ _ _ hdate,
    getTag_applyTableOpt_not_mem _ _ _ hstudy, getTag_ageStep_ne _ _ hage,
    getTag_applyTable_not_mem _ _ _ (hpat _)]

/-! ### Claims about the anonymization transform -/

/-- C4: a field that is not present in the input record is also not present
in the anonymized output record — no step of the transform invents fields.
In particular the age-preservation step never creates `PatientAge`: it runs
after the patient-table rewrite has already blanked `PatientBirthDate`, so
its date parse always fails and the step is a no-op. -/
theorem anonymize_absent_fields_stay_absent (pyHash : String → ℤ) (pfx : String)
    (ds : DicomDataset) (t : String) (h : getTag ds t = none) :
    getTag (anonymizeDataset pyHash pfx ds) t = none := by
  unfold anonymizeDataset uidStep dateStep
  dsimp only
  rw [removePrivateTags_eq]
  apply getTag_removeTags_none
  apply getTag_uidFold_none
  apply getTag_dateFold_none
  apply getTag_applyTableOpt_none
  rw [ageStep_after_patientTable]
  exact getTag_applyTable_none _ _ _ h

theorem anonymize_absent_fields_stay_absent_witness :
    getTag (anonymizeDataset (fun _ => 3) "ANON" [("PatientName", "DOE^JOHN")])
      "PatientAge" = none :=
  anonymize_absent_fields_stay_absent (fun _ => 3) "ANON" _ "PatientAge" rfl

set_option maxRecDepth 8000 in
/-- C5 counterexample: `"1980101"` (7 characters) is not an 8-digit date,
yet `strptime(..., "%Y%m%d")` accepts it (year `1980`, month `10`, day `1`),
so the transform shifts and re-serializes it instead of blanking it: with a
hash giving offset 0, `StudyDate` becomes `"19801001"`, not `""`. -/
theorem anonymize_date_shift_counterexample :
    getTag (anonymizeDataset (fun _ => 0) "ANON" [("StudyDate", "1980101")]) "StudyDate" =
      some "19801001" ∧ ("1980101" : String).length = 7 := by
  constructor
  · decide
  · rfl

/-- C5 (amended): all date-list fields are shifted by the same per-subject
offset `hash(originalPatientId) % 365 ∈ [0, 364]`; a present non-empty value
is transformed by `shiftDateValue`: values accepted by CPython's
`strptime(v, "%Y%m%d")` — which includes some 6/7-character strings with a
one-digit month or day, not only 8-digit dates — are shifted backward by the
offset and re-serialized as an 8-digit date, except that a date whose shift
would fall before 0001-01-01 is blanked (`OverflowError` caught); values
`strptime` rejects are blanked; empty values are left as they are. -/
theorem anonymize_date_shift_amended (pyHash : String → ℤ) (pfx : String)
    (ds : DicomDataset) (t : String) (ht : t ∈ dateTags) :
    0 ≤ pyHash ((getTag ds "PatientID").getD "UNKNOWN") % 365 ∧
    pyHash ((getTag ds "PatientID").getD "UNKNOWN") % 365 < 365 ∧
    getTag (anonymizeDataset pyHash pfx ds) t =
      (getTag ds t).map fun v =>
        if v = "" then v
        else shiftDateValue (pyHash ((getTag ds "PatientID").getD "UNKNOWN") % 365) v :=
  ⟨Int.emod_nonneg _ (by norm_num), Int.emod_lt_of_pos _ (by norm_num),
    getTag_anonymizeDataset_date pyHash pfx ds t ht⟩

theorem anonymize_date_shift_amended_witness :
    getTag (anonymizeDataset (fun _ => 7) "ANON"
        [("PatientID", "pid"), ("StudyDate", "20200115")]) "StudyDate" =
      some (shiftDateValue 7 "20200115") := by
  have h := (anonymize_date_shift_amended (fun _ => 7) "ANON"
    [("PatientID", "pid"), ("StudyDate", "20200115")] "StudyDate" (by decide)).2.2
  rw [h]
  rfl

/-- C6: two-run determinism of identifier regeneration.  For two records
sharing the original `PatientID` and a present UID tag with equal original
value — and for arbitrary, possibly different, process hash seeds — both
runs produce the same pseudonym and the same regenerated UID, namely the
fixed private root followed by the 16-hex-character hash of
`pseudonym ++ "_" ++ originalValue`. -/
theorem anonymize_uid_two_run_determinism (h1 h2 : String → ℤ) (pfx : String)
    (ds1 ds2 : DicomDataset) (t u : String)
    (hpid : getTag ds1 "PatientID" = getTag ds2 "PatientID")
    (ht : t ∈ uidTags)
    (hu1 : getTag ds1 t = some u) (hu2 : getTag ds2 t = some u) :
    anonymousIdOf pfx ((getTag ds1 "PatientID").getD "UNKNOWN") =
        anonymousIdOf pfx ((getTag ds2 "PatientID").getD "UNKNOWN") ∧
    getTag (anonymizeDataset h1 pfx ds1) t =
        some (uidRoot ++ generateAnonymousId
          (anonymousIdOf pfx ((getTag ds1 "PatientID").getD "UNKNOWN") ++ "_" ++ u)) ∧
    getTag (anonymizeDataset h2 pfx ds2) t =
        some (uidRoot ++ generateAnonymousId
          (anonymousIdOf pfx ((getTag ds1 "PatientID").getD "UNKNOWN") ++ "_" ++ u)) := by
  refine ⟨by rw [hpid], ?_, ?_⟩
  · rw [getTag_anonymizeDataset_uid h1 pfx ds1 t ht, hu1]
    rfl
  · rw [getTag_anonymizeDataset_uid h2 pfx ds2 t ht, hu2, ← hpid]
    rfl

theorem anonymize_uid_two_run_determinism_witness :
    getTag (anonymizeDataset (fun _ => 0) "ANON"
        [("PatientID", "123"), ("StudyInstanceUID", "1.2.3")]) "StudyInstanceUID" =
      getTag (anonymizeDataset (fun _ => 99) "ANON"
        [("StudyInstanceUID", "1.2.3"), ("PatientID", "123"), ("StudyDate", "20200101")])
        "StudyInstanceUID" ∧
    getTag (anonymizeDataset (fun _ => 0) "ANON"
        [("PatientID", "123"), ("StudyInstanceUID", "1.2.3")]) "StudyInstanceUID" =
      some (uidRoot ++ generateAnonymousId (anonymousIdOf "ANON" "123" ++ "_" ++ "1.2.3")) := by
  have h := anonymize_uid_two_run_determinism (fun _ => 0) (fun _ => 99) "ANON"
    [("PatientID", "123"), ("StudyInstanceUID", "1.2.3")]
    [("StudyInstanceUID", "1.2.3"), ("PatientID", "123"), ("StudyDate", "20200101")]
    "StudyInstanceUID" "1.2.3" rfl (by decide) rfl rfl
  exact ⟨h.2.1.trans h.2.2.symm, h.2.1⟩

/-- C9 counterexample: when reading the input fails (malformed input), the
top-level `except Exception` handler swallows the failure, prints, and
returns `None` — the caller receives `None`, not an `InvalidRecordError` (no
such class exists anywhere in the code). -/
theorem anonymize_dicom_swallows_error :
    anonymizeDicom (fun _ => 0) (.error "not a DICOM field record") "ANON" = none := rfl

/-- C9 (amended): `anonymize_dicom` never propagates any exception: on
malformed input it returns `None` (after printing the error), and on a
well-formed record the transform always completes and returns the
anonymized record — per-field failures (bad date parses, missing fields)
are handled locally and never abort the transform, which is total. -/
theorem anonymize_dicom_error_policy (pyHash : String → ℤ)
    (readResult : Except String DicomDataset) (pfx : String) :
    (∀ e, readResult = .error e → anonymizeDicom pyHash readResult pfx = none) ∧
    (∀ ds, readResult = .ok ds →
      anonymizeDicom pyHash readResult pfx = some (anonymizeDataset pyHash pfx ds)) := by
  constructor
  · rintro e rfl
    rfl
  · rintro ds rfl
    rfl

theorem anonymize_dicom_error_policy_witness :
    anonymizeDicom (fun _ => 0) (.error "garbage") "ANON" = none ∧
    anonymizeDicom (fun _ => 0) (.ok [("PatientName", "X"), ("StudyDate", "bad-date")]) "ANON" =
      some (anonymizeDataset (fun _ => 0) "ANON"
        [("PatientName", "X"), ("StudyDate", "bad-date")]) :=
  ⟨(anonymize_dicom_error_policy (fun _ => 0) (.error "garbage") "ANON").1 "garbage" rfl,
   (anonymize_dicom_error_policy (fun _ => 0)
      (.ok [("PatientName", "X"), ("StudyDate", "bad-date")]) "ANON").2 _ rfl⟩

/-- Decidable equality of `Except` results, used to evaluate the embedded
functions at concrete inputs. -/
instance {e a : Type} [DecidableEq e] [DecidableEq a] : DecidableEq (Except e a) := fun x y =>
  match x, y with
  | .ok v, .ok w =>
    if h : v = w then isTrue (by rw [h]) else isFalse fun hc => h (Except.ok.inj hc)
  | .error v, .error w =>
    if h : v = w then isTrue (by rw [h]) else isFalse fun hc => h (Except.error.inj hc)
  | .ok _, .error _ => isFalse fun hc => Except.noConfusion hc
  | .error _, .ok _ => isFalse fun hc => Except.noConfusion hc

/-! ## Pixel buffers (`DICOM_reencoder/core/images.py`)

A 2-D frame is a list of rows of integer samples; `pixel_array` is either a
single frame (`ndim <= 2`) or a stack of frames (`ndim > 2`).  numpy float
computations on integer samples (percentiles, rescaling) are modelled
exactly over `ℚ`; `int()` and `astype(np.uint8)` are truncation toward
zero, the latter wrapped modulo 256.
-/

/-- A single 2-D frame: rows of integer samples. -/
abbrev Frame : Type := List (List ℤ)

/-- Attribute `dataset.pixel_array`: single-frame (`ndim <= 2`) or multi-frame. -/
inductive PixelData where
  | single (f : Frame)
  | multi (frames : List Frame)

/-- Errors of the imaging helpers. -/
inductive ImgErr where
  /-- The explicit `IndexError(f"Frame {i} out of range ...")` raised by the
  guard in `get_frame`. -/
  | frameGuard
  /-- numpy's own `IndexError` for an index below `-n`. -/
  | npIndexOutOfBounds
  /-- numpy's `ValueError`/`IndexError` for a reduction or percentile over a
  zero-size array. -/
  | npEmptyReduction
  deriving DecidableEq

/-- Function `get_frame(dataset, frame_index)`: for a multi-frame stack, indices
`>= n` hit the explicit guard; any other index is then handed to numpy
indexing, which accepts `-n <= i < n` (negative indices count from the
end). -/
def getFrame (p : PixelData) (frameIndex : ℤ) : Except ImgErr Frame :=
  match p with
  | .single f => .ok f
  | .multi frames =>
    if (frames.length : ℤ) ≤ frameIndex then .error .frameGuard
    else
      let j := if frameIndex < 0 then frameIndex + frames.length else frameIndex
      if 0 ≤ j ∧ j < (frames.length : ℤ) then .ok (frames.getD j.toNat [])
      else .error .npIndexOutOfBounds

/-- Sample at index `i` of a list, with default 0. -/
def nthC : List ℤ → ℕ → ℤ
  | [], _ => 0
  | x :: _, 0 => x
  | _ :: xs, i + 1 => nthC xs i

/-- Sample at index `i`, clamped into range (numpy percentile interpolation
never reads past the last element). -/
def nthClamped (s : List ℤ) (i : ℕ) : ℤ := nthC s (min i (s.length - 1))

/-- The sorted copy of the samples (`np.sort`, as used inside
`np.percentile`/`np.median`). -/
def sortedOf (l : List ℤ) : List ℤ := l.insertionSort (· ≤ ·)

/-- Linear interpolation of a sorted sample list at fractional position
`pos` (numpy's default `linear` interpolation). -/
def interpAt (s : List ℤ) (pos : ℚ) : ℚ :=
  let i : ℕ := (⌊pos⌋).toNat
  (nthClamped s i : ℚ) +
    (pos - (⌊pos⌋ : ℤ)) * ((nthClamped s (i + 1) : ℚ) - (nthClamped s i : ℚ))

/-- Function `np.percentile(l, q)`: interpolate the sorted samples at position
`q * (n - 1) / 100`. -/
def percentile (l : List ℤ) (q : ℚ) : ℚ :=
  interpAt (sortedOf l) (q * ((l.length : ℚ) - 1) / 100)

/-- Function `np.median`: the 50th percentile (mean of the middle samples). -/
def npMedian (l : List ℤ) : ℚ := percentile l 50

/-- Function `np.min` of a non-empty sample list (the `[]` default is never reached
from `calculate_statistics`, which fails first on an empty buffer). -/
def npMin : List ℤ → ℤ
  | [] => 0
  | x :: xs => xs.foldl min x

/-- Function `np.max`, as `npMin`. -/
def npMax : List ℤ → ℤ
  | [] => 0
  | x :: xs => xs.foldl max x

/-- The statistics record of `calculate_statistics`.  The source also stores
`std = sqrt(variance)`; the square root of a rational is irrational in
general and no claim mentions `std`, so the record carries `variance` and
omits its square root. -/
structure PixelStats where
  min : ℤ
  max : ℤ
  mean : ℚ
  median : ℚ
  variance : ℚ
  p1 : ℚ
  p5 : ℚ
  p25 : ℚ
  p75 : ℚ
  p95 : ℚ
  p99 : ℚ
  total_pixels : ℕ
  unique_values : ℕ
  zero_pixels : ℕ
  range : ℤ
  iqr : ℚ
  zero_percent : ℚ
  deriving DecidableEq, Repr

/-- The error `np.min` raises on a zero-size array (`ValueError: zero-size
array to reduction operation minimum which has no identity`). -/
inductive StatsError where
  | zeroSizeReduction
  deriving DecidableEq, Repr

/-- Function `calculate_statistics(pixel_array)` over the flattened samples.  On an
empty buffer the first reduction (`np.min`) raises; on a non-empty buffer
every metric is computed. -/
def calculateStatistics : List ℤ → Except StatsError PixelStats
  | [] => .error .zeroSizeReduction
  | x :: xs =>
    let flat := x :: xs
    let n : ℕ := flat.length
    let mn := npMin flat
    let mx := npMax flat
    let mean : ℚ := (flat.map fun v => (v : ℚ)).sum / (n : ℚ)
    let zp : ℕ := flat.count 0
    .ok
      { min := mn
        max := mx
        mean := mean
        median := npMedian flat
        variance := (flat.map fun v => ((v : ℚ) - mean) ^ 2).sum / (n : ℚ)
        p1 := percentile flat 1
        p5 := percentile flat 5
        p25 := percentile flat 25
        p75 := percentile flat 75
        p95 := percentile flat 95
        p99 := percentile flat 99
        total_pixels := n
        unique_values := flat.dedup.length
        zero_pixels := zp
        range := mx - mn
        iqr := percentile flat 75 - percentile flat 25
        zero_percent := (zp : ℚ) / ((max n 1 : ℕ) : ℚ) * 100 }

/-- A DICOM tag value hint as read by `_derive_window`: a scalar, or a
pydicom `MultiValue` (necessarily non-empty, since the code reads `wc[0]`). -/
inductive TagValue where
  | scalar (q : ℚ)
  | multi (first : ℚ) (rest : List ℚ)
  deriving DecidableEq

/-- Conversion `float(wc[0])` for a `MultiValue`, the value itself otherwise. -/
def tvFirst : TagValue → ℚ
  | .scalar q => q
  | .multi q _ => q

/-- Python `int()`: truncation toward zero. -/
def ratTrunc (q : ℚ) : ℤ := if 0 ≤ q then ⌊q⌋ else ⌈q⌉

/-- Cast `astype(np.uint8)` on a float value: truncate toward zero, wrap modulo
256. -/
def uint8OfRat (q : ℚ) : ℤ := ratTrunc q % 256

/-- The slice of a pydicom `Dataset` that `images.py` reads. -/
structure ImageDataset where
  pixels : PixelData
  windowCenter : Option TagValue
  windowWidth : Option TagValue
  photometricInterpretation : Option String

/-- The auto (percentile-heuristic) path of `_derive_window`:
`center = median`, `width = p95 - p5`, with `width = width if width > 0 else
float(np.max(frame) - np.min(frame) or 1)`, both passed through `int()`. -/
def deriveWindowAuto (flat : List ℤ) : Except ImgErr (ℤ × ℤ) :=
  match flat with
  | [] => .error .npEmptyReduction
  | x :: xs =>
    let frame := x :: xs
    let center := npMedian frame
    let width : ℚ := percentile frame 95 - percentile frame 5
    let fallback : ℤ := if npMax frame - npMin frame = 0 then 1 else npMax frame - npMin frame
    let width2 : ℚ := if width > 0 then width else (fallback : ℚ)
    .ok (ratTrunc center, ratTrunc width2)

/-- Function `_derive_window(dataset, frame)`: use explicit WindowCenter/WindowWidth
hints verbatim (width coerced through `max(1, ww)` before `int()`), else
fall back to the percentile heuristic over the frame samples. -/
def deriveWindow (wc ww : Option TagValue) (flat : List ℤ) : Except ImgErr (ℤ × ℤ) :=
  match wc, ww with
  | some c, some w => .ok (ratTrunc (tvFirst c), ratTrunc (max 1 (tvFirst w)))
  | _, _ => deriveWindowAuto flat

/-- Function `window_frame(dataset, frame_index, window_center=..., window_width=...)`:
select the frame, resolve the window (explicit arguments only when both are
given, else `_derive_window`), clip, rescale to 8 bits, and invert for
MONOCHROME1. -/
def windowFrame (ds : ImageDataset) (frameIndex : ℤ)
    (windowCenter windowWidth : Option ℤ) : Except ImgErr Frame :=
  match getFrame ds.pixels frameIndex with
  | .error e => .error e
  | .ok frame =>
    let cw : Except ImgErr (ℤ × ℤ) :=
      match windowCenter, windowWidth with
      | some c, some w => .ok (c, w)
      | _, _ => deriveWindow ds.windowCenter ds.windowWidth frame.flatten
    match cw with
    | .error e => .error e
    | .ok (center, width) =>
      let imgMin := center - Int.fdiv width 2
      let imgMax := center + Int.fdiv width 2
      let d : ℤ := max (imgMax - imgMin) 1
      let windowed := frame.map fun row => row.map fun v => min (max v imgMin) imgMax
      let scaled := windowed.map fun row => row.map fun v =>
        uint8OfRat (((v - imgMin : ℤ) : ℚ) / (d : ℚ) * 255)
      .ok
        (if ds.photometricInterpretation = some "MONOCHROME1" then
          scaled.map fun row => row.map fun v => 255 - v
        else scaled)

/-- Spec-side per-sample windowing formula, following the specification's
words: clip to `[imgMin, imgMax]`, rescale by
`(clipped - imgMin) / max(imgMax - imgMin, 1) * 255` truncated to an 8-bit
unsigned integer, then invert if the photometric interpretation is inverted
grayscale. -/
def specWindowSample (center width : ℤ) (inverted : Bool) (v : ℤ) : ℤ :=
  let imgMin := center - Int.fdiv width 2
  let imgMax := center + Int.fdiv width 2
  let clipped := min (max v imgMin) imgMax
  let rescaled :=
    uint8OfRat (((clipped - imgMin : ℤ) : ℚ) / ((max (imgMax - imgMin) 1 : ℤ) : ℚ) * 255)
  if inverted then 255 - rescaled else rescaled

/-- Spec-side windowing of a whole frame: the per-sample formula mapped over
every sample. -/
def specApplyWindow (center width : ℤ) (inverted : Bool) (frame : Frame) : Frame :=
  frame.map fun row => row.map (specWindowSample center width inverted)

/-! ### Sorted-sample lemmas -/

theorem nthC_mem : ∀ (l : List ℤ) (i : ℕ), i < l.length → nthC l i ∈ l := by
  intro l
  induction l with
  | nil => intro i hi; simp at hi
  | cons x xs ih =>
    intro i hi
    cases i with
    | zero => exact List.mem_cons_self _ _
    | succ i' =>
      exact List.mem_cons_of_mem _ (ih i' (by simpa using hi))

theorem sorted_head_le (a : ℤ) (t : List ℤ) (hs : (a :: t).Sorted (· ≤ ·)) :
    ∀ y ∈ a :: t, a ≤ y := by
  rw [List.sorted_cons] at hs
  intro y hy
  rcases List.mem_cons.mp hy with rfl | hyt
  · exact le_refl _
  · exact hs.1 y hyt

theorem nthC_mono (s : List ℤ) (hs : s.Sorted (· ≤ ·)) :
    ∀ i j, i ≤ j → j < s.length → nthC s i ≤ nthC s j := by
  induction s with
  | nil => intro i j _ hj; simp at hj
  | cons a t ih =>
    intro i j hij hj
    have hs' := List.sorted_cons.mp hs
    cases i with
    | zero =>
      cases j with
      | zero => exact le_refl _
      | succ j' =>
        show a ≤ nthC t j'
        exact hs'.1 _ (nthC_mem t j' (by simpa using hj))
    | succ i' =>
      cases j with
      | zero => omega
      | succ j' =>
        exact ih hs'.2 i' j' (by omega) (by simpa using hj)

theorem nthClamped_mono (s : List ℤ) (hs : s.Sorted (· ≤ ·)) (hne : s ≠ [])
    (i j : ℕ) (hij : i ≤ j) : nthClamped s i ≤ nthClamped s j := by
  unfold nthClamped
  have hlen : 1 ≤ s.length := by
    cases s
    · exact absurd rfl hne
    · simp
  exact nthC_mono s hs _ _ (by omega) (by omega)

theorem nthClamped_le_last (s : List ℤ) (hs : s.Sorted (· ≤ ·)) (hne : s ≠ [])
    (i : ℕ) : nthClamped s i ≤ nthClamped s (s.length - 1) := by
  unfold nthClamped
  have hlen : 1 ≤ s.length := by
    cases s
    · exact absurd rfl hne
    · simp
  exact nthC_mono s hs _ _ (by omega) (by omega)

theorem head_le_nthClamped (s : List ℤ) (hs : s.Sorted (· ≤ ·)) (hne : s ≠ [])
    (i : ℕ) : nthClamped s 0 ≤ nthClamped s i :=
  nthClamped_mono s hs hne 0 i (Nat.zero_le _)

/-- The elementary interpolation bounds: for `0 ≤ f ≤ 1` and `a ≤ b`,
`a ≤ a + f * (b - a) ≤ b`. -/
theorem interp_cell_bounds (a b f : ℚ) (hab : a ≤ b) (hf0 : 0 ≤ f) (hf1 : f ≤ 1) :
    a ≤ a + f * (b - a) ∧ a + f * (b - a) ≤ b := by
  constructor
  · nlinarith
  · nlinarith

theorem interpAt_mono (s : List ℤ) (hs : s.Sorted (· ≤ ·)) (hne : s ≠ [])
    (p q : ℚ) (hp : 0 ≤ p) (hpq : p ≤ q) : interpAt s p ≤ interpAt s q := by
  have hq : 0 ≤ q := le_trans hp hpq
  have hfp0 : (0 : ℚ) ≤ p - (⌊p⌋ : ℤ) := by
    have := Int.floor_le p
    linarith
  have hfp1 : p - (⌊p⌋ : ℤ) ≤ 1 := by
    have := Int.lt_floor_add_one p
    push_cast at this ⊢
    linarith
  have hfq0 : (0 : ℚ) ≤ q - (⌊q⌋ : ℤ) := by
    have := Int.floor_le q
    linarith
  have hfq1 : q - (⌊q⌋ : ℤ) ≤ 1 := by
    have := Int.lt_floor_add_one q
    push_cast at this ⊢
    linarith
  have hab_p : nthClamped s (⌊p⌋).toNat ≤ nthClamped s ((⌊p⌋).toNat + 1) :=
    nthClamped_mono s hs hne _ _ (Nat.le_succ _)
  have hab_q : nthClamped s (⌊q⌋).toNat ≤ nthClamped s ((⌊q⌋).toNat + 1) :=
    nthClamped_mono s hs hne _ _ (Nat.le_succ _)
  rcases eq_or_lt_of_le (Int.floor_le_floor hpq) with hfl | hfl
  · -- same cell: interpolation is monotone in the fractional part
    unfold interpAt
    rw [← hfl]
    have hff : p - (⌊p⌋ : ℤ) ≤ q - (⌊q⌋ : ℤ) := by
      rw [← hfl]
      linarith
    have hcast : ((nthClamped s ((⌊p⌋).toNat + 1) : ℤ) : ℚ) - (nthClamped s (⌊p⌋).toNat : ℚ) ≥ 0 := by
      have := hab_p
      exact_mod_cast sub_nonneg.mpr (by exact_mod_cast this)
    have := mul_le_mul_of_nonneg_right (hfl ▸ hff) hcast
    dsimp only
    nlinarith [mul_le_mul_of_nonneg_right hff hcast]
  · -- different cells: pass through the cell boundaries
    have hip : ((⌊p⌋).toNat : ℤ) = ⌊p⌋ := Int.toNat_of_nonneg (Int.floor_nonneg.mpr hp)
    have hiq : ((⌊q⌋).toNat : ℤ) = ⌊q⌋ := Int.toNat_of_nonneg (Int.floor_nonneg.mpr hq)
    have hidx : (⌊p⌋).toNat + 1 ≤ (⌊q⌋).toNat := by omega
    have h1 : interpAt s p ≤ (nthClamped s ((⌊p⌋).toNat + 1) : ℚ) := by
      unfold interpAt
      dsimp only
      have hab : (nthClamped s (⌊p⌋).toNat : ℚ) ≤ (nthClamped s ((⌊p⌋).toNat + 1) : ℚ) := by
        exact_mod_cast hab_p
      nlinarith
    have h2 : (nthClamped s ((⌊p⌋).toNat + 1) : ℚ) ≤ (nthClamped s (⌊q⌋).toNat : ℚ) := by
      exact_mod_cast nthClamped_mono s hs hne _ _ hidx
    have h3 : (nthClamped s (⌊q⌋).toNat : ℚ) ≤ interpAt s q := by
      unfold interpAt
      dsimp only
      have hab : (nthClamped s (⌊q⌋).toNat : ℚ) ≤ (nthClamped s ((⌊q⌋).toNat + 1) : ℚ) := by
        exact_mod_cast hab_q
      nlinarith
    linarith

theorem head_le_interpAt (s : List ℤ) (hs : s.Sorted (· ≤ ·)) (hne : s ≠ [])
    (p : ℚ) (_hp : 0 ≤ p) : (nthClamped s 0 : ℚ) ≤ interpAt s p := by
  have hf0 : (0 : ℚ) ≤ p - (⌊p⌋ : ℤ) := by
    have := Int.floor_le p
    linarith
  have hab : (nthClamped s (⌊p⌋).toNat : ℚ) ≤ (nthClamped s ((⌊p⌋).toNat + 1) : ℚ) := by
    exact_mod_cast nthClamped_mono s hs hne _ _ (Nat.le_succ _)
  have hhead : (nthClamped s 0 : ℚ) ≤ (nthClamped s (⌊p⌋).toNat : ℚ) := by
    exact_mod_cast head_le_nthClamped s hs hne _
  unfold interpAt
  dsimp only
  nlinarith

theorem interpAt_le_last (s : List ℤ) (hs : s.Sorted (· ≤ ·)) (hne : s ≠ [])
    (p : ℚ) (_hp : 0 ≤ p) : interpAt s p ≤ (nthClamped s (s.length - 1) : ℚ) := by
  have hf1 : p - (⌊p⌋ : ℤ) ≤ 1 := by
    have := Int.lt_floor_add_one p
    push_cast at this ⊢
    linarith
  have hf0 : (0 : ℚ) ≤ p - (⌊p⌋ : ℤ) := by
    have := Int.floor_le p
    linarith
  have hab : (nthClamped s (⌊p⌋).toNat : ℚ) ≤ (nthClamped s ((⌊p⌋).toNat + 1) : ℚ) := by
    exact_mod_cast nthClamped_mono s hs hne _ _ (Nat.le_succ _)
  have hlast : (nthClamped s ((⌊p⌋).toNat + 1) : ℚ) ≤ (nthClamped s (s.length - 1) : ℚ) := by
    exact_mod_cast nthClamped_le_last s hs hne _
  unfold interpAt
  dsimp only
  nlinarith

/-! ### `np.min` / `np.max` versus the sorted samples -/

theorem foldl_min_le : ∀ (xs : List ℤ) (x y : ℤ), y ∈ x :: xs → xs.foldl min x ≤ y := by
  intro xs
  induction xs with
  | nil =>
    intro x y hy
    rcases List.mem_cons.mp hy with heq | h
    · rw [heq]
      exact le_refl _
    · simp at h
  | cons a t ih =>
    intro x y hy
    show t.foldl min (min x a) ≤ y
    rcases List.mem_cons.mp hy with heq | h
    · rw [heq]
      exact le_trans (ih (min x a) _ (List.mem_cons_self _ _)) (min_le_left _ _)
    · rcases List.mem_cons.mp h with heq2 | h2
      · rw [heq2]
        exact le_trans (ih (min x a) _ (List.mem_cons_self _ _)) (min_le_right _ _)
      · exact ih (min x a) _ (List.mem_cons_of_mem _ h2)

theorem foldl_min_mem : ∀ (xs : List ℤ) (x : ℤ), xs.foldl min x ∈ x :: xs := by
  intro xs
  induction xs with
  | nil => intro x; exact List.mem_cons_self _ _
  | cons a t ih =>
    intro x
    show t.foldl min (min x a) ∈ x :: a :: t
    have h := ih (min x a)
    rcases List.mem_cons.mp h with hx | ht
    · rcases min_choice x a with hc | hc
      · rw [hx, hc]
        exact List.mem_cons_self _ _
      · rw [hx, hc]
        exact List.mem_cons_of_mem _ (List.mem_cons_self _ _)
    · exact List.mem_cons_of_mem _ (List.mem_cons_of_mem _ ht)

theorem foldl_max_ge : ∀ (xs : List ℤ) (x y : ℤ), y ∈ x :: xs → y ≤ xs.foldl max x := by
  intro xs
  induction xs with
  | nil =>
    intro x y hy
    rcases List.mem_cons.mp hy with heq | h
    · rw [heq]
      exact le_refl _
    · simp at h
  | cons a t ih =>
    intro x y hy
    show y ≤ t.foldl max (max x a)
    rcases List.mem_cons.mp hy with heq | h
    · rw [heq]
      exact le_trans (le_max_left _ _) (ih (max x a) _ (List.mem_cons_self _ _))
    · rcases List.mem_cons.mp h with heq2 | h2
      · rw [heq2]
        exact le_trans (le_max_right _ _) (ih (max x a) _ (List.mem_cons_self _ _))
      · exact ih (max x a) _ (List.mem_cons_of_mem _ h2)

theorem foldl_max_mem : ∀ (xs : List ℤ) (x : ℤ), xs.foldl max x ∈ x :: xs := by
  intro xs
  induction xs with
  | nil => intro x; exact List.mem_cons_self _ _
  | cons a t ih =>
    intro x
    show t.foldl max (max x a) ∈ x :: a :: t
    have h := ih (max x a)
    rcases List.mem_cons.mp h with hx | ht
    · rcases max_choice x a with hc | hc
      · rw [hx, hc]
        exact List.mem_cons_self _ _
      · rw [hx, hc]
        exact List.mem_cons_of_mem _ (List.mem_cons_self _ _)
    · exact List.mem_cons_of_mem _ (List.mem_cons_of_mem _ ht)

theorem npMin_mem (l : List ℤ) (h : l ≠ []) : npMin l ∈ l := by
  cases l with
  | nil => exact absurd rfl h
  | cons x xs => exact foldl_min_mem xs x

theorem npMin_le (l : List ℤ) (y : ℤ) (hy : y ∈ l) : npMin l ≤ y := by
  cases l with
  | nil => simp at hy
  | cons x xs => exact foldl_min_le xs x y hy

theorem npMax_mem (l : List ℤ) (h : l ≠ []) : npMax l ∈ l := by
  cases l with
  | nil => exact absurd rfl h
  | cons x xs => exact foldl_max_mem xs x

theorem le_npMax (l : List ℤ) (y : ℤ) (hy : y ∈ l) : y ≤ npMax l := by
  cases l with
  | nil => simp at hy
  | cons x xs => exact foldl_max_ge xs x y hy

theorem sortedOf_sorted (l : List ℤ) : (sortedOf l).Sorted (· ≤ ·) :=
  List.sorted_insertionSort _ l

theorem sortedOf_perm (l : List ℤ) : (sortedOf l).Perm l :=
  List.perm_insertionSort _ l

theorem sortedOf_length (l : List ℤ) : (sortedOf l).length = l.length :=
  (sortedOf_perm l).length_eq

theorem sortedOf_ne_nil (l : List ℤ) (h : l ≠ []) : sortedOf l ≠ [] := by
  intro hnil
  apply h
  have := sortedOf_length l
  rw [hnil] at this
  exact List.length_eq_zero.mp this.symm

theorem npMin_eq_sorted_head (l : List ℤ) (h : l ≠ []) :
    npMin l = nthClamped (sortedOf l) 0 := by
  have hne := sortedOf_ne_nil l h
  have hlen : 0 < (sortedOf l).length := List.length_pos.mpr hne
  have hmem_s : nthClamped (sortedOf l) 0 ∈ sortedOf l := by
    unfold nthClamped
    exact nthC_mem _ _ (by omega)
  have hmem_l : nthClamped (sortedOf l) 0 ∈ l := (sortedOf_perm l).mem_iff.mp hmem_s
  have h1 : npMin l ≤ nthClamped (sortedOf l) 0 := npMin_le l _ hmem_l
  have h2 : nthClamped (sortedOf l) 0 ≤ npMin l := by
    have hmem_min : npMin l ∈ sortedOf l := (sortedOf_perm l).mem_iff.mpr (npMin_mem l h)
    cases hs : sortedOf l with
    | nil => exact absurd hs hne
    | cons a t =>
      have : nthClamped (a :: t) 0 = a := by
        unfold nthClamped
        simp [nthC]
      rw [this]
      rw [hs] at hmem_min
      exact sorted_head_le a t (hs ▸ sortedOf_sorted l) _ hmem_min
  omega


theorem nthC_eq_get : ∀ (l : List ℤ) (i : ℕ) (h : i < l.length), nthC l i = l.get ⟨i, h⟩ := by
  intro l
  induction l with
  | nil => intro i h; simp at h
  | cons x xs ih =>
    intro i h
    cases i with
    | zero => rfl
    | succ i' => exact ih i' (by simpa using h)

theorem le_sorted_last (s : List ℤ) (hs : s.Sorted (· ≤ ·)) (hne : s ≠ []) :
    ∀ y ∈ s, y ≤ nthClamped s (s.length - 1) := by
  intro y hy
  obtain ⟨⟨i, hi⟩, hiy⟩ := List.mem_iff_get.mp hy
  have h1 : nthC s i = y := by rw [nthC_eq_get s i hi, hiy]
  have hlen : 1 ≤ s.length := by
    cases s
    · exact absurd rfl hne
    · simp
  unfold nthClamped
  rw [← h1]
  exact nthC_mono s hs i (min (s.length - 1) (s.length - 1)) (by omega) (by omega)

theorem npMax_eq_sorted_last (l : List ℤ) (h : l ≠ []) :
    npMax l = nthClamped (sortedOf l) ((sortedOf l).length - 1) := by
  have hne := sortedOf_ne_nil l h
  have hlen : 0 < (sortedOf l).length := List.length_pos.mpr hne
  have hmem_s : nthClamped (sortedOf l) ((sortedOf l).length - 1) ∈ sortedOf l := by
    unfold nthClamped
    exact nthC_mem _ _ (by omega)
  have hmem_l : nthClamped (sortedOf l) ((sortedOf l).length - 1) ∈ l :=
    (sortedOf_perm l).mem_iff.mp hmem_s
  have h1 : nthClamped (sortedOf l) ((sortedOf l).length - 1) ≤ npMax l := le_npMax l _ hmem_l
  have h2 : npMax l ≤ nthClamped (sortedOf l) ((sortedOf l).length - 1) :=
    le_sorted_last (sortedOf l) (sortedOf_sorted l) hne _
      ((sortedOf_perm l).mem_iff.mpr (npMax_mem l h))
  omega

theorem nthClamped_const (s : List ℤ) (c : ℤ) (hne : s ≠ []) (hc : ∀ y ∈ s, y = c)
    (i : ℕ) : nthClamped s i = c := by
  have hlen : 1 ≤ s.length := by
    cases s
    · exact absurd rfl hne
    · simp
  unfold nthClamped
  exact hc _ (nthC_mem _ _ (by omega))

theorem percentile_const (l : List ℤ) (c : ℤ) (hne : l ≠ []) (hc : ∀ y ∈ l, y = c)
    (q : ℚ) : percentile l q = (c : ℚ) := by
  have hcs : ∀ y ∈ sortedOf l, y = c := fun y hy => hc y ((sortedOf_perm l).mem_iff.mp hy)
  have hsne := sortedOf_ne_nil l hne
  unfold percentile interpAt
  dsimp only
  rw [nthClamped_const _ _ hsne hcs, nthClamped_const _ _ hsne hcs]
  ring

theorem npMin_const (l : List ℤ) (c : ℤ) (hne : l ≠ []) (hc : ∀ y ∈ l, y = c) :
    npMin l = c :=
  hc _ (npMin_mem l hne)

theorem npMax_const (l : List ℤ) (c : ℤ) (hne : l ≠ []) (hc : ∀ y ∈ l, y = c) :
    npMax l = c :=
  hc _ (npMax_mem l hne)

/-! ### Claims about the statistics and windowing engine -/

/-- C8: for every non-empty buffer of N samples the statistics record has
`total_pixels = N`, an ordered chain
`min ≤ p1 ≤ p5 ≤ p25 ≤ median ≤ p75 ≤ p95 ≤ p99 ≤ max`, and the derived
identities `range = max - min`, `iqr = p75 - p25`, and
`zero_percent = zero_pixels / max(total_pixels, 1) * 100`. -/
theorem calculate_statistics_spec (l : List ℤ) (h : l ≠ []) :
    ∃ st, calculateStatistics l = .ok st ∧
      st.total_pixels = l.length ∧
      ((st.min : ℚ) ≤ st.p1 ∧ st.p1 ≤ st.p5 ∧ st.p5 ≤ st.p25 ∧ st.p25 ≤ st.median ∧
        st.median ≤ st.p75 ∧ st.p75 ≤ st.p95 ∧ st.p95 ≤ st.p99 ∧ st.p99 ≤ (st.max : ℚ)) ∧
      st.range = st.max - st.min ∧
      st.iqr = st.p75 - st.p25 ∧
      st.zero_percent = (st.zero_pixels : ℚ) / ((max st.total_pixels 1 : ℕ) : ℚ) * 100 := by
  cases l with
  | nil => exact absurd rfl h
  | cons x xs =>
    have hne : x :: xs ≠ [] := List.cons_ne_nil _ _
    have hs := sortedOf_sorted (x :: xs)
    have hsne := sortedOf_ne_nil (x :: xs) hne
    have hn : 1 ≤ (x :: xs).length := by simp
    have hnq : (0 : ℚ) ≤ ((x :: xs).length : ℚ) - 1 := by
      have : (1 : ℚ) ≤ ((x :: xs).length : ℚ) := by exact_mod_cast hn
      linarith
    have hposn : ∀ q : ℚ, 0 ≤ q → 0 ≤ q * (((x :: xs).length : ℚ) - 1) / 100 :=
      fun q hq => div_nonneg (mul_nonneg hq hnq) (by norm_num)
    have hposmono : ∀ q1 q2 : ℚ, q1 ≤ q2 →
        q1 * (((x :: xs).length : ℚ) - 1) / 100 ≤ q2 * (((x :: xs).length : ℚ) - 1) / 100 := by
      intro q1 q2 hq
      have := mul_le_mul_of_nonneg_right hq hnq
      linarith
    have hstep : ∀ q1 q2 : ℚ, 0 ≤ q1 → q1 ≤ q2 →
        percentile (x :: xs) q1 ≤ percentile (x :: xs) q2 := by
      intro q1 q2 hq1 hq12
      exact interpAt_mono _ hs hsne _ _ (hposn q1 hq1) (hposmono q1 q2 hq12)
    refine ⟨_, rfl, rfl, ⟨?_, ?_, ?_, ?_, ?_, ?_, ?_, ?_⟩, rfl, rfl, rfl⟩
    · show (npMin (x :: xs) : ℚ) ≤ percentile (x :: xs) 1
      rw [npMin_eq_sorted_head _ hne]
      exact head_le_interpAt _ hs hsne _ (hposn 1 (by norm_num))
    · exact hstep 1 5 (by norm_num) (by norm_num)
    · exact hstep 5 25 (by norm_num) (by norm_num)
    · exact hstep 25 50 (by norm_num) (by norm_num)
    · exact hstep 50 75 (by norm_num) (by norm_num)
    · exact hstep 75 95 (by norm_num) (by norm_num)
    · exact hstep 95 99 (by norm_num) (by norm_num)
    · show percentile (x :: xs) 99 ≤ (npMax (x :: xs) : ℚ)
      rw [npMax_eq_sorted_last _ hne]
      exact interpAt_le_last _ hs hsne _ (hposn 99 (by norm_num))

theorem calculate_statistics_spec_witness :
    ∃ st, calculateStatistics [3, 3, 3] = .ok st ∧
      st.total_pixels = ([3, 3, 3] : List ℤ).length ∧
      ((st.min : ℚ) ≤ st.p1 ∧ st.p1 ≤ st.p5 ∧ st.p5 ≤ st.p25 ∧ st.p25 ≤ st.median ∧
        st.median ≤ st.p75 ∧ st.p75 ≤ st.p95 ∧ st.p95 ≤ st.p99 ∧ st.p99 ≤ (st.max : ℚ)) ∧
      st.range = st.max - st.min ∧
      st.iqr = st.p75 - st.p25 ∧
      st.zero_percent = (st.zero_pixels : ℚ) / ((max st.total_pixels 1 : ℕ) : ℚ) * 100 :=
  calculate_statistics_spec [3, 3, 3] (by simp)

/-! ### C7, C2: error behavior and width derivation -/

/-- C7 counterexample: on an empty buffer `calculate_statistics` does not
degrade gracefully and no `EmptyBufferError` exists anywhere in the code —
the very first reduction, `np.min`, raises its zero-size `ValueError`,
which propagates unhandled to the caller. -/
theorem calculate_statistics_empty_raises :
    calculateStatistics [] = .error .zeroSizeReduction := rfl

/-- C7 (amended): on an empty buffer the computation fails with numpy's
zero-size reduction error (there is no graceful degradation and no dedicated
`EmptyBufferError` class); for every non-empty buffer the computation
succeeds and raises nothing. -/
theorem calculate_statistics_error_policy (l : List ℤ) :
    (l = [] → calculateStatistics l = .error .zeroSizeReduction) ∧
    (l ≠ [] → ∃ st, calculateStatistics l = .ok st) := by
  constructor
  · rintro rfl
    rfl
  · intro h
    cases l with
    | nil => exact absurd rfl h
    | cons x xs => exact ⟨_, rfl⟩

theorem calculate_statistics_error_policy_witness :
    calculateStatistics [] = .error .zeroSizeReduction ∧
    ∃ st, calculateStatistics [5] = .ok st :=
  ⟨(calculate_statistics_error_policy []).1 rfl,
   (calculate_statistics_error_policy [5]).2 (by simp)⟩

theorem ratTrunc_nonneg (q : ℚ) (h : 0 ≤ q) : 0 ≤ ratTrunc q := by
  unfold ratTrunc
  rw [if_pos h]
  exact Int.floor_nonneg.mpr h

theorem one_le_ratTrunc (q : ℚ) (h : 1 ≤ q) : 1 ≤ ratTrunc q := by
  unfold ratTrunc
  rw [if_pos (le_trans zero_le_one h)]
  exact Int.le_floor.mpr (by exact_mod_cast h)

theorem ratTrunc_intCast (z : ℤ) : ratTrunc (z : ℚ) = z := by
  unfold ratTrunc
  split
  · exact Int.floor_intCast z
  · exact Int.ceil_intCast z

theorem ratTrunc_one : ratTrunc 1 = 1 := by
  unfold ratTrunc
  rw [if_pos (by norm_num : (0 : ℚ) ≤ 1)]
  exact Int.floor_one

/-- In auto mode a returned width is nonnegative, and a uniform flat buffer
exhausts both fallbacks and yields exactly width 1. -/
theorem deriveWindowAuto_width (flat : List ℤ) (c w : ℤ)
    (h : deriveWindowAuto flat = .ok (c, w)) :
    0 ≤ w ∧ ∀ z : ℤ, (∀ y ∈ flat, y = z) → w = 1 := by
  cases flat with
  | nil => simp [deriveWindowAuto] at h
  | cons x xs =>
    unfold deriveWindowAuto at h
    dsimp only at h
    rw [Except.ok.injEq, Prod.mk.injEq] at h
    obtain ⟨-, hw⟩ := h
    have hminmax : npMin (x :: xs) ≤ npMax (x :: xs) :=
      le_trans (npMin_le _ x (List.mem_cons_self _ _)) (le_npMax _ x (List.mem_cons_self _ _))
    constructor
    · rw [← hw]
      by_cases hpos : percentile (x :: xs) 95 - percentile (x :: xs) 5 > 0
      · rw [if_pos hpos]
        exact ratTrunc_nonneg _ (le_of_lt hpos)
      · rw [if_neg hpos]
        apply ratTrunc_nonneg
        split
        · norm_num
        · exact_mod_cast sub_nonneg.mpr hminmax
    · intro z hz
      have hne : x :: xs ≠ [] := List.cons_ne_nil _ _
      have hp95 := percentile_const (x :: xs) z hne hz 95
      have hp5 := percentile_const (x :: xs) z hne hz 5
      have hwidth : percentile (x :: xs) 95 - percentile (x :: xs) 5 = 0 := by
        rw [hp95, hp5]
        ring
      have hmn := npMin_const (x :: xs) z hne hz
      have hmx := npMax_const (x :: xs) z hne hz
      rw [← hw, hwidth]
      norm_num
      rw [hmx, hmn]
      simp [ratTrunc_intCast, ratTrunc_one]

theorem interpAt_zero_one (q : ℚ) (h0 : 0 ≤ q) (h1 : q < 1) :
    interpAt [0, 1] q = q := by
  unfold interpAt
  have hf : ⌊q⌋ = 0 := Int.floor_eq_zero_iff.mpr ⟨h0, h1⟩
  rw [hf]
  dsimp only
  rw [show nthClamped [0, 1] (Int.toNat 0) = 0 from rfl,
    show nthClamped [0, 1] (Int.toNat 0 + 1) = 1 from rfl]
  push_cast
  ring

theorem percentile_zero_one (q : ℚ) (h0 : 0 ≤ q) (h1 : q < 100) :
    percentile [0, 1] q = q / 100 := by
  unfold percentile
  rw [show sortedOf [0, 1] = [0, 1] from by decide]
  rw [show q * ((([0, 1] : List ℤ).length : ℚ) - 1) / 100 = q / 100 from by norm_num]
  exact interpAt_zero_one _ (by positivity) (by linarith)

/-- C2 counterexample: for the two-sample buffer `[0, 1]` in auto mode, the
percentile spread is `0.95 - 0.05 = 0.9 > 0`, so no fallback fires, and
`int(0.9) = 0`: the derived window width is 0, refuting "the returned width
is never 0 for any input". -/
theorem derive_window_zero_width_counterexample :
    deriveWindow none none [0, 1] = .ok (0, 0) := by
  show deriveWindowAuto [0, 1] = .ok (0, 0)
  unfold deriveWindowAuto
  dsimp only
  rw [show npMedian [0, 1] = 50 / 100 from by
      unfold npMedian
      exact percentile_zero_one 50 (by norm_num) (by norm_num),
    percentile_zero_one 95 (by norm_num) (by norm_num),
    percentile_zero_one 5 (by norm_num) (by norm_num),
    if_pos (by norm_num : (95 : ℚ) / 100 - 5 / 100 > 0)]
  rw [show ratTrunc (50 / 100) = 0 from by
      unfold ratTrunc
      rw [if_pos (by norm_num : (0 : ℚ) ≤ 50 / 100)]
      norm_num,
    show ratTrunc ((95 : ℚ) / 100 - 5 / 100) = 0 from by
      unfold ratTrunc
      rw [if_pos (by norm_num : (0 : ℚ) ≤ (95 : ℚ) / 100 - 5 / 100)]
      norm_num]

/-- C2 (amended): when both explicit center/width hints are present the
width is coerced to at least 1; in auto mode the returned width is only
guaranteed nonnegative — a uniform flat buffer exhausts the fallbacks and
yields width 1, but a positive percentile spread below 1 is truncated by
`int()` to width 0. -/
theorem derive_window_width_amended (wc ww : Option TagValue) (flat : List ℤ) (c w : ℤ)
    (h : deriveWindow wc ww flat = .ok (c, w)) :
    0 ≤ w ∧
    (wc ≠ none → ww ≠ none → 1 ≤ w) ∧
    ((wc = none ∨ ww = none) → ∀ z : ℤ, (∀ y ∈ flat, y = z) → w = 1) := by
  rcases wc with _ | cv
  · have hauto : deriveWindowAuto flat = .ok (c, w) := h
    have := deriveWindowAuto_width flat c w hauto
    exact ⟨this.1, fun hc _ => absurd rfl hc, fun _ => this.2⟩
  · rcases ww with _ | wv
    · have hauto : deriveWindowAuto flat = .ok (c, w) := h
      have := deriveWindowAuto_width flat c w hauto
      exact ⟨this.1, fun _ hc => absurd rfl hc, fun _ => this.2⟩
    · unfold deriveWindow at h
      dsimp only at h
      rw [Except.ok.injEq, Prod.mk.injEq] at h
      obtain ⟨-, hw⟩ := h
      have h1 : 1 ≤ w := by
        rw [← hw]
        exact one_le_ratTrunc _ (le_max_left _ _)
      refine ⟨by omega, fun _ _ => h1, fun hcon => ?_⟩
      rcases hcon with hc | hc <;> exact absurd hc (by simp)

theorem derive_window_width_amended_witness :
    deriveWindow (some (.scalar 100)) (some (.scalar (101 / 2))) [7] = .ok (100, 50) ∧
    (0 : ℤ) ≤ 50 ∧ (1 : ℤ) ≤ 50 := by
  have hd : deriveWindow (some (.scalar 100)) (some (.scalar (101 / 2))) [7] =
      .ok (100, 50) := by
    unfold deriveWindow
    dsimp only [tvFirst]
    rw [show max (1 : ℚ) (101 / 2) = 101 / 2 from max_eq_right (by norm_num)]
    rw [show ratTrunc (100 : ℚ) = 100 from by
        unfold ratTrunc
        rw [if_pos (by norm_num : (0 : ℚ) ≤ 100)]
        norm_num,
      show ratTrunc ((101 : ℚ) / 2) = 50 from by
        unfold ratTrunc
        rw [if_pos (by norm_num : (0 : ℚ) ≤ 101 / 2)]
        norm_num]
  have h := derive_window_width_amended _ _ _ _ _ hd
  exact ⟨hd, h.1, h.2.1 (by simp) (by simp)⟩

/-! ### C3, C10: windowing formula and frame selection -/

theorem frame_map2_fusion (f g : ℤ → ℤ) (fr : Frame) :
    (fr.map fun row => row.map g).map (fun row => row.map f) =
      fr.map fun row => row.map fun v => f (g v) := by
  simp [List.map_map, Function.comp]

theorem frame_map3_fusion (f g h : ℤ → ℤ) (fr : Frame) :
    ((fr.map fun row => row.map h).map fun row => row.map g).map (fun row => row.map f) =
      fr.map fun row => row.map fun v => f (g (h v)) := by
  simp [List.map_map, Function.comp]

theorem specApplyWindow_shape (c w : ℤ) (b : Bool) (frame : Frame) :
    (specApplyWindow c w b frame).map List.length = frame.map List.length := by
  simp [specApplyWindow, List.map_map, Function.comp]

/-- C3: with an explicit (center, width), `window_frame` returns a new
buffer in which every sample is the claim's formula — clip to
`[center - width // 2, center + width // 2]` (floor division), rescale by
`(clipped - imgMin) / max(imgMax - imgMin, 1) * 255` truncated to an 8-bit
unsigned integer, inverted when the photometric interpretation is
MONOCHROME1 — and of the same shape as the selected frame; the embedding is
a pure function, so the input buffer is not modified. -/
theorem window_frame_explicit_spec (ds : ImageDataset) (fi : ℤ) (c w : ℤ) (frame : Frame)
    (hf : getFrame ds.pixels fi = .ok frame) :
    windowFrame ds fi (some c) (some w) =
      .ok (specApplyWindow c w
        (ds.photometricInterpretation == some "MONOCHROME1") frame) ∧
    (specApplyWindow c w (ds.photometricInterpretation == some "MONOCHROME1") frame).map
        List.length = frame.map List.length := by
  refine ⟨?_, specApplyWindow_shape _ _ _ _⟩
  unfold windowFrame
  rw [hf]
  dsimp only
  by_cases hpi : ds.photometricInterpretation = some "MONOCHROME1"
  · rw [if_pos hpi]
    rw [frame_map3_fusion]
    have hb : (ds.photometricInterpretation == some "MONOCHROME1") = true := by
      rw [hpi]
      exact beq_self_eq_true _
    rw [hb]
    rfl
  · rw [if_neg hpi]
    rw [frame_map2_fusion]
    have hb : (ds.photometricInterpretation == some "MONOCHROME1") = false :=
      beq_eq_false_iff_ne.mpr hpi
    rw [hb]
    rfl

theorem window_frame_explicit_spec_witness :
    windowFrame ⟨.single [[5, 300]], none, none, none⟩ 0 (some 128) (some 256) =
      .ok (specApplyWindow 128 256 ((none : Option String) == some "MONOCHROME1")
        [[5, 300]]) ∧
    (specApplyWindow 128 256 ((none : Option String) == some "MONOCHROME1")
        [[5, 300]]).map List.length = ([[5, 300]] : Frame).map List.length :=
  window_frame_explicit_spec ⟨.single [[5, 300]], none, none, none⟩ 0 128 256 [[5, 300]] rfl

/-- C10: in `get_frame` the explicit out-of-range guard rejects exactly the
indices `frame_index ≥ n`; a negative index with `-n ≤ frame_index ≤ -1`
passes the guard and numpy indexing returns the frame counted from the end
of the stack (`frame n + frame_index`) with no error or warning. -/
theorem get_frame_negative_index (frames : List Frame) (i : ℤ)
    (h1 : -(frames.length : ℤ) ≤ i) (h2 : i ≤ -1) :
    getFrame (.multi frames) i = .ok (frames.getD (i + frames.length).toNat []) ∧
    ∀ j : ℤ, (getFrame (.multi frames) j = .error .frameGuard ↔ (frames.length : ℤ) ≤ j) := by
  constructor
  · simp only [getFrame]
    rw [if_neg (by omega : ¬(frames.length : ℤ) ≤ i)]
    change (if 0 ≤ (if i < 0 then i + (frames.length : ℤ) else i) ∧
        (if i < 0 then i + (frames.length : ℤ) else i) < (frames.length : ℤ) then
        Except.ok (frames.getD (if i < 0 then i + (frames.length : ℤ) else i).toNat [])
      else Except.error ImgErr.npIndexOutOfBounds) =
      Except.ok (frames.getD (i + (frames.length : ℤ)).toNat [])
    rw [if_pos (by omega : i < 0)]
    rw [if_pos (by constructor <;> omega)]
  · intro j
    constructor
    · intro hj
      by_contra hlt
      simp only [getFrame] at hj
      rw [if_neg hlt] at hj
      change (if 0 ≤ (if j < 0 then j + (frames.length : ℤ) else j) ∧
          (if j < 0 then j + (frames.length : ℤ) else j) < (frames.length : ℤ) then
          Except.ok (frames.getD (if j < 0 then j + (frames.length : ℤ) else j).toNat [])
        else Except.error ImgErr.npIndexOutOfBounds) = Except.error ImgErr.frameGuard at hj
      by_cases hjneg : j < 0
      · rw [if_pos hjneg] at hj
        split at hj
        · exact Except.noConfusion hj
        · exact ImgErr.noConfusion (Except.error.inj hj)
      · rw [if_neg hjneg] at hj
        split at hj
        · exact Except.noConfusion hj
        · exact ImgErr.noConfusion (Except.error.inj hj)
    · intro hj
      simp only [getFrame]
      rw [if_pos hj]

theorem get_frame_negative_index_witness :
    getFrame (.multi [[[1]], [[2]], [[3]]]) (-1) = .ok [[3]] ∧
    ∀ j : ℤ, (getFrame (.multi [[[1]], [[2]], [[3]]]) j = .error .frameGuard ↔
      (([[[1]], [[2]], [[3]]] : List Frame).length : ℤ) ≤ j) :=
  get_frame_negative_index [[[1]], [[2]], [[3]]] (-1) (by norm_num) (by norm_num)
